import Mathlib

/-!
Verification model of the Signal11 callback library (src/Signal.h).

The library implements a multicast callback registry: a circular
doubly-linked list of reference-counted nodes (`SignalLink`) anchored at a
sentinel node, with `connect` / `disconnect` / `emit` operations and
pluggable result collectors.

The C++ heap is modelled as a partial map from addresses (`Nat`, with `0`
playing the role of `nullptr`) to nodes.  Every operation below is a direct
transcription of the corresponding member function of `Signal.h`.

One deliberate modelling point: the C++ base struct `ProtoSignalLink`
declares `bool _enabled;` and no constructor, and `SignalLink`'s constructor
initialises `_next`, `_prev`, `_callbackFunc` and `_refCount` only, so every
freshly allocated node's `_enabled` flag is an indeterminate (uninitialised)
boolean.  The model makes that indeterminacy explicit: allocation reads the
flag's value from an environment `e : Nat → Bool` indexed by the node's
address, which is quantified in the theorems.
-/

namespace Signal11

/-- Callbacks of the modelled signal.  `ret r` is a plain callback returning
`r`; `connectRet c r` models a callback that re-entrantly connects the new
callback `c` to the same signal and then returns `r` (the reentrant-connect
scenario of the spec). -/
inductive CB (R : Type) where
  | ret : R → CB R
  | connectRet : CB R → R → CB R
deriving DecidableEq, Repr

/-- A `SignalLink` node: `next`/`prev` pointers (0 = `nullptr`), the optional
callback (`none` = null `std::function`), the reference count, and the
`_enabled` flag inherited from `ProtoSignalLink`. -/
structure Node (R : Type) where
  next : Nat
  prev : Nat
  cb : Option (CB R)
  rc : Int
  en : Bool
deriving DecidableEq, Repr

/-- The heap: addresses to allocated nodes.  Address 0 models `nullptr` and
is never allocated. -/
abbrev Heap (R : Type) : Type := Nat → Option (Node R)

/-- Heap update at one address. -/
def hset {R : Type} (h : Heap R) (i : Nat) (n : Node R) : Heap R :=
  fun j => if j = i then some n else h j

/-- Heap deallocation (`delete this`). -/
def hdel {R : Type} (h : Heap R) (i : Nat) : Heap R :=
  fun j => if j = i then none else h j

/-- In-place field update of the node at address `j`, a no-op when the
address is unallocated (C++ would dereference a dangling pointer there). -/
def adjust {R : Type} (h : Heap R) (j : Nat) (f : Node R → Node R) : Heap R :=
  match h j with
  | some m => hset h j (f m)
  | none => h

/-- Read a node's `_next` pointer (0 when the address is dangling). -/
def nextOf {R : Type} (h : Heap R) (i : Nat) : Nat :=
  match h i with
  | some n => n.next
  | none => 0

/-- `SignalLink::incref`: `_refCount += 1`. -/
def incref {R : Type} (h : Heap R) (i : Nat) : Heap R :=
  adjust h i (fun n => { n with rc := n.rc + 1 })

/-- `SignalLink::decref`: decrement; delete the node when the count reaches
zero, otherwise `assert(_refCount > 0)`.  The second component reports
whether that assertion failed (i.e. the count became negative). -/
def decref {R : Type} (h : Heap R) (i : Nat) : Heap R × Bool :=
  match h i with
  | some n =>
    let rc' := n.rc - 1
    if rc' = 0 then (hdel h i, false)
    else (hset h i { n with rc := rc' }, decide (rc' < 0))
  | none => (h, false)

/-- `SignalLink::unlink`: clear the callback slot, bridge the neighbours'
`prev`/`next` over this node, then `decref`.  The node's own `next`/`prev`
are left intact for stale iterators.  Second component: assertion flag from
the final `decref`. -/
def unlink {R : Type} (h : Heap R) (i : Nat) : Heap R × Bool :=
  match h i with
  | some n =>
    let h1 := hset h i { n with cb := none }
    let h2 := if n.next ≠ 0 then adjust h1 n.next (fun m => { m with prev := n.prev }) else h1
    let h3 := if n.prev ≠ 0 then adjust h2 n.prev (fun m => { m with next := n.next }) else h2
    decref h3 i
  | none => (h, false)

/-- `SignalLink::addBefore`: allocate a new node at address `fresh` holding
callback `c`, splice it immediately before `self` (`link->_prev = _prev;
link->_next = this; _prev->_next = link; _prev = link`).  The new node's
`_enabled` flag is uninitialised in the C++ source; its indeterminate value
is `e`.  Returns the heap and the new node's address. -/
def addBefore {R : Type} (h : Heap R) (self : Nat) (c : Option (CB R))
    (e : Bool) (fresh : Nat) : Heap R × Nat :=
  match h self with
  | some n =>
    let h1 := hset h fresh { next := self, prev := n.prev, cb := c, rc := 1, en := e }
    let h2 := adjust h1 n.prev (fun m => { m with next := fresh })
    let h3 := adjust h2 self (fun m => { m with prev := fresh })
    (h3, fresh)
  | none => (h, 0)

/-- The list of nodes visited by `removeSibling`'s scan: follow `next`
pointers from `cur`, stopping when the scan returns to `self` (or fuel runs
out).  This is the declarative "currently part of this ring, reachable from
the node after `self` without passing `self`" notion of the spec. -/
def chainFrom {R : Type} (h : Heap R) (self : Nat) : Nat → Nat → List Nat
  | _, 0 => []
  | cur, fuel + 1 =>
    if cur = self then [] else cur :: chainFrom h self (nextOf h cur) fuel

/-- The scan loop of `SignalLink::removeSibling`: `for(; link != this; link
= link->_next) if (id == link) { link->unlink(); return true; } return
false;`.  Returns `none` when fuel runs out (the C++ loop would diverge or
fault on a corrupted ring); otherwise the final heap, whether the target
was found and unlinked, and the assertion flag from `unlink`. -/
def sibLoop {R : Type} (h : Heap R) (self target : Nat) :
    Nat → Nat → Option (Heap R × Bool × Bool)
  | _, 0 => none
  | cur, fuel + 1 =>
    if cur = self then some (h, false, false)
    else if cur = target then
      let u := unlink h cur
      some (u.1, true, u.2)
    else sibLoop h self target (nextOf h cur) fuel

/-- `SignalLink::removeSibling(id)`: start from `this->_next` when non-null,
else from `this`, and scan. -/
def removeSibling {R : Type} (h : Heap R) (self target : Nat) (fuel : Nat) :
    Option (Heap R × Bool × Bool) :=
  sibLoop h self target (if nextOf h self ≠ 0 then nextOf h self else self) fuel

/-- The success condition of `removeSibling` stated declaratively: the
target occurs on the `next`-chain that starts after `self` and stops at
`self`. -/
def reachableSib {R : Type} (h : Heap R) (self target : Nat) (fuel : Nat) : Prop :=
  target ∈ chainFrom h self (if nextOf h self ≠ 0 then nextOf h self else self) fuel

/-- `SignalLink::remove`: fail when `_next` is null, otherwise delegate to
`removeSibling` on the next node with this node as the target. -/
def removeLink {R : Type} (h : Heap R) (i : Nat) (fuel : Nat) :
    Option (Heap R × Bool × Bool) :=
  if nextOf h i = 0 then some (h, false, false)
  else removeSibling h (nextOf h i) i fuel

/-- Signal state: the heap, the ring anchor `_callbackRing` (0 = null,
i.e. the ring was never materialised), and the next fresh address. -/
structure St (R : Type) where
  heap : Heap R
  ring : Nat
  fresh : Nat

/-- `ProtoSignal::ensureRing`: if the ring is absent, allocate the sentinel
with a null callback, `refCount = 2` (one allocation reference plus one
`incref`), and self-linked `next`/`prev`.  The sentinel's `_enabled` flag is
uninitialised in the source; its indeterminate value is `e i`. -/
def ensureRing {R : Type} (e : Nat → Bool) (st : St R) : St R :=
  if st.ring = 0 then
    let i := st.fresh
    { heap := hset st.heap i { next := i, prev := i, cb := none, rc := 2, en := e i },
      ring := i, fresh := i + 1 }
  else st

/-- Overwrite the callback slot of node `i` (used by the constructor's
`_callbackRing->_callbackFunc = method`). -/
def setCb {R : Type} (st : St R) (i : Nat) (c : Option (CB R)) : St R :=
  { st with heap := adjust st.heap i (fun n => { n with cb := c }) }

/-- `ProtoSignal::ProtoSignal(method)`: start with a null ring; when the
default callback is non-null, materialise the ring and store the callback
into the sentinel node. -/
def mkSignal {R : Type} (m : Option (CB R)) (e : Nat → Bool) : St R :=
  let st0 : St R := { heap := fun _ => none, ring := 0, fresh := 1 }
  match m with
  | none => st0
  | some c =>
    let st1 := ensureRing e st0
    setCb st1 st1.ring (some c)

/-- `ProtoSignal::connect`: `ensureRing(); return
ConnectionRef(_callbackRing->addBefore(callback));`.  Returns the new state
and the connected node's address (the handle's target). -/
def connect {R : Type} (e : Nat → Bool) (st : St R) (c : CB R) : St R × Nat :=
  let st1 := ensureRing e st
  let p := addBefore st1.heap st1.ring (some c) (e st1.fresh) st1.fresh
  ({ st1 with heap := p.1, fresh := st1.fresh + 1 }, p.2)

/-- `ProtoSignalLink::setEnabled` applied to node `i`. -/
def setEnabledSt {R : Type} (st : St R) (i : Nat) (b : Bool) : St R :=
  { st with heap := adjust st.heap i (fun n => { n with en := b }) }

/-- `ConnectionRef::disconnect`: when the stored link is non-null, null it
out and call `remove()` on it; when already null, return `false` without
touching anything.  Returns `(result, updated handle, updated state)`;
`none` on fuel exhaustion inside `removeSibling`. -/
def crefDisconnect {R : Type} (st : St R) (h : Option Nat) (fuel : Nat) :
    Option (Bool × Option Nat × St R) :=
  match h with
  | none => some (false, none, st)
  | some i =>
    match removeLink st.heap i fuel with
    | some (h', b, _) => some (b, none, { st with heap := h' })
    | none => none

/-- Running a callback during emission: a plain callback just returns its
value; a reentrant-connect callback connects its payload to the signal
(`connect` on the same registry) and returns. -/
def runCB {R : Type} (e : Nat → Bool) (st : St R) (c : CB R) : St R × R :=
  match c with
  | .ret r => (st, r)
  | .connectRet c' r => ((connect e st c').1, r)

/-- A result collector: initial accumulator, per-callback step returning the
new accumulator and the continue flag, and the final result projection. -/
structure Col (R ρ σ : Type) where
  init : σ
  step : σ → R → σ × Bool
  result : σ → ρ

/-- `CollectorLast` (and `CollectorDefault` for non-void results): store the
value, always continue.  Its C++ member `Result _last;` is
default-initialised — indeterminate for scalar result types — so the initial
accumulator is an explicit parameter `d`. -/
def colLast (R : Type) (d : R) : Col R R R :=
  { init := d, step := fun _ r => (r, true), result := fun s => s }

/-- `CollectorVector`: append every value, always continue. -/
def colVector (R : Type) : Col R (List R) (List R) :=
  { init := [], step := fun s r => (s ++ [r], true), result := fun s => s }

/-- `CollectorUntil0` at result type `bool`: store the value, continue while
it is truthy; `_result` is value-initialised to `false`. -/
def colUntil0 : Col Bool Bool Bool :=
  { init := false, step := fun _ r => (r, r), result := fun s => s }

/-- `CollectorWhile0` at result type `bool`: store the value, continue while
it is falsy; `_result` is value-initialised to `false`. -/
def colWhile0 : Col Bool Bool Bool :=
  { init := false, step := fun _ r => (r, !r), result := fun s => s }

/-- The `do … while (link != _callbackRing)` loop of `ProtoSignal::emit`.
Arguments: fuel, state, current link, collector accumulator, trace of
invoked node addresses so far, accumulated assertion flag.  Each iteration:
if the current node is enabled and holds a callback, invoke it and feed the
collector, breaking out (with the trailing `link->decref()`) when the
collector stops the emission; otherwise advance — re-reading `_next` after
the callback ran — with `incref` on the next node and `decref` on the old
one, exiting (again with the trailing `decref`) when the walk is back at
the ring anchor.  `none` models fuel exhaustion or a dangling dereference,
neither of which occurs in the runs the theorems consider. -/
def emitLoop {R ρ σ : Type} (E : Col R ρ σ) (e : Nat → Bool) (ring : Nat) :
    Nat → St R → Nat → σ → List Nat → Bool → Option (St R × σ × List Nat × Bool)
  | 0, _, _, _, _, _ => none
  | fuel + 1, st, cur, acc, tr, fl =>
    match st.heap cur with
    | none => none
    | some n =>
      let iv : St R × σ × List Nat × Bool :=
        match n.cb with
        | some c =>
          if n.en then
            let p := runCB e st c
            let q := E.step acc p.2
            (p.1, q.1, tr ++ [cur], q.2)
          else (st, acc, tr, true)
        | none => (st, acc, tr, true)
      if iv.2.2.2 then
        let nxt := nextOf iv.1.heap cur
        let h1 := incref iv.1.heap nxt
        let d := decref h1 cur
        let st' : St R := { iv.1 with heap := d.1 }
        let fl' := fl || d.2
        if nxt = ring then
          let d2 := decref st'.heap ring
          some ({ st' with heap := d2.1 }, iv.2.1, iv.2.2.1, fl' || d2.2)
        else
          emitLoop E e ring fuel st' nxt iv.2.1 iv.2.2.1 fl'
      else
        let d := decref iv.1.heap cur
        some ({ iv.1 with heap := d.1 }, iv.2.1, iv.2.2.1, fl || d.2)

/-- `ProtoSignal::emit`: fast path returning the fresh collector's result
when the ring was never materialised; otherwise `incref` the sentinel and
run the walk starting at the sentinel.  Output: final state, collector
result, trace of invoked node addresses in invocation order, assertion
flag. -/
def emit {R ρ σ : Type} (E : Col R ρ σ) (e : Nat → Bool) (fuel : Nat) (st : St R) :
    Option (St R × ρ × List Nat × Bool) :=
  if st.ring = 0 then some (st, E.result E.init, [], false)
  else
    let st1 : St R := { st with heap := incref st.heap st.ring }
    (emitLoop E e st.ring fuel st1 st.ring E.init [] false).map
      (fun o => (o.1, E.result o.2.1, o.2.2.1, o.2.2.2))

/-- The `while(_callbackRing->_next != _callbackRing) _callbackRing->_next->unlink();`
loop of the destructor.  Accumulates assertion flags from the unlinks. -/
def destroyLoop {R : Type} : Nat → Heap R → Nat → Bool → Option (Heap R × Bool)
  | 0, _, _, _ => none
  | fuel + 1, h, ring, fl =>
    if nextOf h ring = ring then some (h, fl)
    else
      let u := unlink h (nextOf h ring)
      destroyLoop fuel u.1 ring (fl || u.2)

/-- `ProtoSignal::~ProtoSignal`: nothing to do when the ring is null;
otherwise unlink every node after the sentinel, then
`assert(_callbackRing->_refCount >= 2)` (the flag records a violation,
i.e. a count below 2), then release the sentinel's two references.
Result: final heap and whether any assertion fired during destruction. -/
def destroy {R : Type} (fuel : Nat) (st : St R) : Option (Heap R × Bool) :=
  if st.ring = 0 then some (st.heap, false)
  else
    match destroyLoop fuel st.heap st.ring false with
    | none => none
    | some (h, fl) =>
      match h st.ring with
      | some n =>
        let aFired := decide (n.rc < 2)
        let d1 := decref h st.ring
        let d2 := decref d1.1 st.ring
        some (d2.1, fl || aFired || d1.2 || d2.2)
      | none => none

/-- Client operations on a signal, for reachable-state reasoning.  Handles
are referred to by the index at which `connect` issued them.  `disconnect`
and `emit` carry the fuel for their internal loops. -/
inductive Op (R : Type) where
  | connect : CB R → Op R
  | disconnect : Nat → Nat → Op R
  | setEnabled : Nat → Bool → Op R
  | emit : Nat → Op R

/-- A run of the registry: its state, the handles issued so far (`none`
once disconnected, as `ConnectionRef::disconnect` nulls its link), the
traces of all emissions performed, and whether any assertion fired. -/
structure Run (R : Type) where
  st : St R
  hs : List (Option Nat)
  traces : List (List Nat)
  fired : Bool

/-- Apply one client operation.  Operations through an out-of-range handle
index, or through an already-nulled handle, are no-ops (for `setEnabled`
the C++ would dereference a null link; no well-formed client does that).
`none` signals fuel exhaustion of an internal loop. -/
def runOp {R ρ σ : Type} (E : Col R ρ σ) (e : Nat → Bool) (r : Run R) :
    Op R → Option (Run R)
  | .connect c =>
    let p := connect e r.st c
    some { r with st := p.1, hs := r.hs ++ [some p.2] }
  | .disconnect k fuel =>
    match r.hs.get? k with
    | none => some r
    | some none => some r
    | some (some i) =>
      match removeLink r.st.heap i fuel with
      | some (h', _, f) =>
        let st' : St R := { r.st with heap := h' }
        some { r with st := st', hs := r.hs.set k none, fired := r.fired || f }
      | none => none
  | .setEnabled k b =>
    match r.hs.get? k with
    | none => some r
    | some none => some r
    | some (some i) => some { r with st := setEnabledSt r.st i b }
  | .emit fuel =>
    match emit E e fuel r.st with
    | some (st', _, tr, f) =>
      some { r with st := st', traces := r.traces ++ [tr], fired := r.fired || f }
    | none => none

/-- Apply a sequence of client operations. -/
def runOps {R ρ σ : Type} (E : Col R ρ σ) (e : Nat → Bool) :
    Run R → List (Op R) → Option (Run R)
  | r, [] => some r
  | r, op :: ops =>
    match runOp E e r op with
    | some r' => runOps E e r' ops
    | none => none

/-- The initial run: a freshly constructed signal, no handles, no traces. -/
def initRun {R : Type} (m : Option (CB R)) (e : Nat → Bool) : Run R :=
  { st := mkSignal m e, hs := [], traces := [], fired := false }

/-- A registry whose ring holds only the sentinel, with reference count `k`
(used to probe the destructor's assertion). -/
def ringOnly (k : Int) : St Nat :=
  { heap := hset (fun _ => none) 1 { next := 1, prev := 1, cb := none, rc := k, en := true },
    ring := 1, fresh := 2 }

/-- All uninitialised `_enabled` reads come out `true` in this run. -/
def allOn : Nat → Bool := fun _ => true

/-- All uninitialised `_enabled` reads come out `false` in this run. -/
def allOff : Nat → Bool := fun _ => false

/-- The uninitialised `_enabled` read of the node allocated at address 3
comes out `false`; all others come out `true`. -/
def offAt3 : Nat → Bool := fun i => i != 3

/-- Connect three callbacks, in order, to a freshly constructed signal with
no default callback.  The sentinel is allocated at address 1 and the three
nodes at addresses 2, 3, 4. -/
def connect3 {R : Type} (e : Nat → Bool) (a b c : CB R) : St R :=
  (connect e ((connect e ((connect e (mkSignal none e) a).1) b).1) c).1

/-- Heap evolution that preserves every existing node's callback slot and
enabled flag (reference counts and `next`/`prev` links may change, nodes may
be added, but no existing node is freed or has its callback or flag
touched).  This is exactly what an emission does to the nodes that were
already present. -/
def presEnCb {R : Type} (h h' : Heap R) : Prop :=
  ∀ j n0, h j = some n0 → ∃ n1, h' j = some n1 ∧ n1.cb = n0.cb ∧ n1.en = n0.en

/-- A trace entry was either already recorded, or is an address that — in
the given reference heap — held an enabled node with a non-null callback,
or an address not yet allocated in that heap (a node connected by a
reentrant callback during this very emission). -/
def traceOK {R : Type} (h : Heap R) (tr delta : List Nat) : Prop :=
  ∀ j ∈ delta, j ∈ tr ∨
    (∃ nj, h j = some nj ∧ nj.en = true ∧ nj.cb ≠ none) ∨ h j = none

/-- The sentinel's callback slot is empty (vacuously true when the address
is dead or the ring is null). -/
def cbNone {R : Type} (h : Heap R) (ring : Nat) : Prop :=
  ∀ n, h ring = some n → n.cb = none

/-- Reference-count invariant relative to a traversal cursor: the sentinel
holds its two anchor references, every other live node holds exactly one,
and the node the cursor stands on holds one more.  `cur = 0` means no
traversal is in progress. -/
def rcCur {R : Type} (h : Heap R) (ring cur : Nat) : Prop :=
  ∀ i n, h i = some n →
    n.rc = (if i = ring then 2 else 1) + (if i = cur then 1 else 0)

/-- The well-formedness invariant of correct API use: address 0 unallocated,
addresses at or above `fresh` unallocated, `fresh` positive, reference
counts as in `rcCur`, and (once materialised) a live sentinel below
`fresh`. -/
structure GoodH {R : Type} (h : Heap R) (ring fresh cur : Nat) : Prop where
  zero : h 0 = none
  frOk : ∀ i, fresh ≤ i → h i = none
  frPos : 1 ≤ fresh
  rc : rcCur h ring cur
  ringLive : ring ≠ 0 → (h ring).isSome
  ringLt : ring ≠ 0 → ring < fresh

/-- Invariant of a whole run: well-formed state, every live handle points
below `fresh` and away from the sentinel, and no assertion has fired. -/
structure RunInv {R : Type} (r : Run R) : Prop where
  good : GoodH r.st.heap r.st.ring r.st.fresh 0
  hOk : ∀ ho ∈ r.hs, ∀ i, ho = some i → i ≠ r.st.ring ∧ i < r.st.fresh
  fired : r.fired = false

/-- Sentinel-emptiness invariant of a run of a registry constructed without
a default callback: the sentinel's callback slot is empty, no recorded
emission trace contains the sentinel, and no callback was ever invoked
while the ring was unmaterialised. -/
structure CbInv {R : Type} (r : Run R) : Prop where
  cb : cbNone r.st.heap r.st.ring
  trNe : ∀ t ∈ r.traces, ∀ j ∈ t, j ≠ r.st.ring
  tr0 : r.st.ring = 0 → ∀ t ∈ r.traces, t = []

end Signal11

namespace Signal11

theorem hset_self {R : Type} (h : Heap R) (i : Nat) (n : Node R) :
    hset h i n i = some n := by
  simp [hset]

theorem hset_ne {R : Type} (h : Heap R) {i j : Nat} {n : Node R} (hij : j ≠ i) :
    hset h i n j = h j := by
  simp [hset, hij]

theorem hdel_self {R : Type} (h : Heap R) (i : Nat) : hdel h i i = none := by
  simp [hdel]

theorem hdel_ne {R : Type} (h : Heap R) {i j : Nat} (hij : j ≠ i) :
    hdel h i j = h j := by
  simp [hdel, hij]

theorem adjust_ne {R : Type} (h : Heap R) {i j : Nat} (f : Node R → Node R)
    (hij : i ≠ j) : adjust h j f i = h i := by
  cases hj : h j <;> simp [adjust, hj, hset, hij]

theorem adjust_self {R : Type} (h : Heap R) (j : Nat) (f : Node R → Node R) :
    adjust h j f j = (h j).map f := by
  cases hj : h j <;> simp [adjust, hj, hset_self]

/-- Two heaps with pointwise equal reference counts and callback slots
(hence equal allocation status). -/
def sameRcCb {R : Type} (h h' : Heap R) : Prop :=
  ∀ i, (h' i).map Node.rc = (h i).map Node.rc ∧
       (h' i).map Node.cb = (h i).map Node.cb

theorem sameRcCb_refl {R : Type} (h : Heap R) : sameRcCb h h := by
  intro i; exact ⟨rfl, rfl⟩

theorem sameRcCb_trans {R : Type} {h1 h2 h3 : Heap R}
    (a : sameRcCb h1 h2) (b : sameRcCb h2 h3) : sameRcCb h1 h3 := by
  intro i
  exact ⟨(b i).1.trans (a i).1, (b i).2.trans (a i).2⟩

theorem sameRcCb_isSome {R : Type} {h h' : Heap R} (s : sameRcCb h h') (i : Nat) :
    (h' i).isSome = (h i).isSome := by
  have := (s i).1
  cases hx : h' i <;> cases hy : h i <;> simp [hx, hy] at this ⊢

theorem sameRcCb_none {R : Type} {h h' : Heap R} (s : sameRcCb h h') {i : Nat}
    (hi : h i = none) : h' i = none := by
  have := sameRcCb_isSome s i
  rw [hi] at this
  simpa [Option.isSome_iff_exists] using this

theorem sameRcCb_some {R : Type} {h h' : Heap R} (s : sameRcCb h h') {i : Nat}
    {n : Node R} (hn : h' i = some n) :
    ∃ m, h i = some m ∧ m.rc = n.rc ∧ m.cb = n.cb := by
  have h1 := (s i).1
  have h2 := (s i).2
  rw [hn] at h1 h2
  cases hy : h i
  · rw [hy] at h1; simp at h1
  · rw [hy] at h1 h2
    simp at h1 h2
    exact ⟨_, rfl, h1.symm, h2.symm⟩

theorem adjust_sameRcCb {R : Type} (h : Heap R) (j : Nat) (f : Node R → Node R)
    (hf : ∀ n, (f n).rc = n.rc ∧ (f n).cb = n.cb) :
    sameRcCb h (adjust h j f) := by
  intro i
  by_cases hij : i = j
  · subst hij
    rw [adjust_self]
    cases h i
    · simp
    · simp [(hf _).1, (hf _).2]
  · rw [adjust_ne _ _ hij]
    exact ⟨rfl, rfl⟩

theorem sameRcCb_GoodH {R : Type} {h h' : Heap R} {ring fresh cur : Nat}
    (s : sameRcCb h h') (G : GoodH h ring fresh cur) : GoodH h' ring fresh cur := by
  refine ⟨sameRcCb_none s G.zero, fun i hi => sameRcCb_none s (G.frOk i hi), G.frPos,
    ?_, ?_, G.ringLt⟩
  · intro i n hn
    obtain ⟨m, hm, hrc, _⟩ := sameRcCb_some s hn
    rw [← hrc]
    exact G.rc i m hm
  · intro hr
    rw [sameRcCb_isSome s]
    exact G.ringLive hr

theorem sameRcCb_cbNone {R : Type} {h h' : Heap R} {ring : Nat}
    (s : sameRcCb h h') (c : cbNone h ring) : cbNone h' ring := by
  intro n hn
  obtain ⟨m, hm, _, hcb⟩ := sameRcCb_some s hn
  rw [← hcb]
  exact c m hm

theorem decref_some {R : Type} {h : Heap R} {i : Nat} {n : Node R} (hn : h i = some n) :
    decref h i =
      if n.rc - 1 = 0 then (hdel h i, false)
      else (hset h i { n with rc := n.rc - 1 }, decide (n.rc - 1 < 0)) := by
  simp [decref, hn]

theorem decref_none {R : Type} {h : Heap R} {i : Nat} (hn : h i = none) :
    decref h i = (h, false) := by
  simp [decref, hn]

theorem incref_some {R : Type} {h : Heap R} {i : Nat} {n : Node R} (hn : h i = some n) :
    incref h i = hset h i { n with rc := n.rc + 1 } := by
  simp [incref, adjust, hn]

theorem incref_none {R : Type} {h : Heap R} {i : Nat} (hn : h i = none) :
    incref h i = h := by
  simp [incref, adjust, hn]

theorem presEnCb_refl {R : Type} (h : Heap R) : presEnCb h h :=
  fun _ n0 hj => ⟨n0, hj, rfl, rfl⟩

theorem presEnCb_trans {R : Type} {h1 h2 h3 : Heap R}
    (a : presEnCb h1 h2) (b : presEnCb h2 h3) : presEnCb h1 h3 := by
  intro j n0 hj
  obtain ⟨n1, hn1, hc1, he1⟩ := a j n0 hj
  obtain ⟨n2, hn2, hc2, he2⟩ := b j n1 hn1
  exact ⟨n2, hn2, hc2.trans hc1, he2.trans he1⟩

theorem hset_fresh_presEnCb {R : Type} {h : Heap R} {i : Nat} (hi : h i = none)
    (m : Node R) : presEnCb h (hset h i m) := by
  intro j n0 hj
  have hji : j ≠ i := by
    intro he
    rw [he, hi] at hj
    exact Option.noConfusion hj
  exact ⟨n0, by rw [hset_ne _ hji]; exact hj, rfl, rfl⟩

theorem hset_keep_presEnCb {R : Type} {h : Heap R} {i : Nat} {n : Node R}
    (hn : h i = some n) {m : Node R} (hcb : m.cb = n.cb) (hen : m.en = n.en) :
    presEnCb h (hset h i m) := by
  intro j n0 hj
  by_cases hji : j = i
  · subst hji
    rw [hj] at hn
    cases hn
    exact ⟨m, hset_self _ _ _, hcb, hen⟩
  · exact ⟨n0, by rw [hset_ne _ hji]; exact hj, rfl, rfl⟩

theorem adjust_presEnCb {R : Type} (h : Heap R) (j : Nat) (f : Node R → Node R)
    (hf : ∀ n, (f n).cb = n.cb ∧ (f n).en = n.en) :
    presEnCb h (adjust h j f) := by
  intro i n0 hi
  by_cases hij : i = j
  · subst hij
    rw [adjust_self, hi]
    exact ⟨f n0, rfl, (hf n0).1, (hf n0).2⟩
  · rw [adjust_ne _ _ hij]
    exact ⟨n0, hi, rfl, rfl⟩

theorem traceOK_pull {R : Type} {h h' : Heap R} (pres : presEnCb h h')
    {tr delta : List Nat} (hP : traceOK h' tr delta) : traceOK h tr delta := by
  intro j hj
  rcases hP j hj with hin | hsome | hnone
  · exact Or.inl hin
  · cases hx : h j with
    | none => exact Or.inr (Or.inr rfl)
    | some n0 =>
      obtain ⟨n1, hn1, hc1, he1⟩ := pres j n0 hx
      obtain ⟨nj, hnj, hje, hjc⟩ := hsome
      rw [hn1] at hnj
      cases hnj
      refine Or.inr (Or.inl ⟨n0, rfl, ?_, ?_⟩)
      · rw [← he1]
        exact hje
      · rw [← hc1]
        exact hjc
  · cases hx : h j with
    | none => exact Or.inr (Or.inr rfl)
    | some n0 =>
      obtain ⟨n1, hn1, _, _⟩ := pres j n0 hx
      rw [hn1] at hnone
      exact Option.noConfusion hnone

end Signal11

namespace Signal11

theorem GoodH.live_lt {R : Type} {h : Heap R} {ring fresh cur i : Nat}
    (G : GoodH h ring fresh cur) {n : Node R} (hn : h i = some n) : i < fresh := by
  by_contra hge
  rw [G.frOk i (Nat.le_of_not_lt hge)] at hn
  exact Option.noConfusion hn

theorem GoodH.live_ne_zero {R : Type} {h : Heap R} {ring fresh cur i : Nat}
    (G : GoodH h ring fresh cur) {n : Node R} (hn : h i = some n) : i ≠ 0 := by
  intro h0
  rw [h0, G.zero] at hn
  exact Option.noConfusion hn

/-- Releasing the traversal cursor's reference (`old->decref()` on the break
and exit paths of `emit`): never fires the assertion, never frees the node,
and restores the cursor-free invariant. -/
theorem cursor_decref {R : Type} {h : Heap R} {ring fresh cur : Nat}
    (G : GoodH h ring fresh cur) {n : Node R} (hn : h cur = some n) :
    (decref h cur).2 = false ∧ GoodH (decref h cur).1 ring fresh 0 ∧
    (cbNone h ring → cbNone (decref h cur).1 ring) ∧
    presEnCb h (decref h cur).1 := by
  have hcur0 : cur ≠ 0 := G.live_ne_zero hn
  have hrc : n.rc = (if cur = ring then 2 else 1) + 1 := by
    have := G.rc cur n hn
    simpa using this
  have hb : (1:Int) ≤ (if cur = ring then 2 else 1) := by split <;> norm_num
  have hne : n.rc - 1 ≠ 0 := by omega
  have hnneg : ¬ (n.rc - 1 < 0) := by omega
  rw [decref_some hn, if_neg hne]
  dsimp only
  refine ⟨by simpa using hnneg, ?_, ?_, hset_keep_presEnCb hn rfl rfl⟩
  · refine ⟨?_, ?_, G.frPos, ?_, ?_, G.ringLt⟩
    · rw [hset_ne _ (Ne.symm hcur0)]
      exact G.zero
    · intro i hi
      have : i ≠ cur := by
        intro he
        exact absurd (G.live_lt hn) (by omega)
      rw [hset_ne _ this]
      exact G.frOk i hi
    · intro i m him
      by_cases hic : i = cur
      · subst hic
        rw [hset_self] at him
        cases him
        simp only [if_neg hcur0]
        omega
      · rw [hset_ne _ hic] at him
        have := G.rc i m him
        have hi0 : i ≠ 0 := G.live_ne_zero him
        simp only [if_neg hic] at this
        simp only [if_neg hi0]
        omega
    · intro hr
      by_cases hrc2 : ring = cur
      · rw [hrc2, hset_self]
        rfl
      · rw [hset_ne _ hrc2]
        exact G.ringLive hr
  · intro c m hm
    by_cases hrc2 : ring = cur
    · rw [hrc2, hset_self] at hm
      cases hm
      exact c n (hrc2 ▸ hn)
    · rw [hset_ne _ hrc2] at hm
      exact c m hm

/-- Advancing the traversal (`link = old->_next; link->incref();
old->decref();`): never fires the assertion, moves the cursor to `nxt`,
and preserves sentinel emptiness. -/
theorem advance_inv {R : Type} {h : Heap R} {ring fresh cur : Nat} (nxt : Nat)
    (G : GoodH h ring fresh cur) {n : Node R} (hn : h cur = some n) :
    (decref (incref h nxt) cur).2 = false ∧
    GoodH (decref (incref h nxt) cur).1 ring fresh nxt ∧
    (cbNone h ring → cbNone (decref (incref h nxt) cur).1 ring) ∧
    presEnCb h (decref (incref h nxt) cur).1 := by
  have hcur0 : cur ≠ 0 := G.live_ne_zero hn
  have hrc : n.rc = (if cur = ring then 2 else 1) + 1 := by
    have := G.rc cur n hn
    simpa using this
  have hb : (1:Int) ≤ (if cur = ring then 2 else 1) := by split <;> norm_num
  cases hx : h nxt with
  | none =>
    -- dead or null next: incref is a no-op
    have hcn : cur ≠ nxt := by
      intro he
      rw [he, hx] at hn
      exact Option.noConfusion hn
    rw [incref_none hx]
    have hne : n.rc - 1 ≠ 0 := by omega
    have hnneg : ¬ (n.rc - 1 < 0) := by omega
    rw [decref_some hn, if_neg hne]
    dsimp only
    refine ⟨by simpa using hnneg, ?_, ?_, hset_keep_presEnCb hn rfl rfl⟩
    · refine ⟨?_, ?_, G.frPos, ?_, ?_, G.ringLt⟩
      · rw [hset_ne _ (Ne.symm hcur0)]
        exact G.zero
      · intro i hi
        have : i ≠ cur := by
          intro he
          exact absurd (G.live_lt hn) (by omega)
        rw [hset_ne _ this]
        exact G.frOk i hi
      · intro i m him
        by_cases hic : i = cur
        · subst hic
          rw [hset_self] at him
          cases him
          simp only [if_neg hcn]
          omega
        · rw [hset_ne _ hic] at him
          have := G.rc i m him
          have hix : i ≠ nxt := by
            intro he
            rw [he, hx] at him
            exact Option.noConfusion him
          simp only [if_neg hic] at this
          simp only [if_neg hix]
          omega
      · intro hr
        by_cases hrc2 : ring = cur
        · rw [hrc2, hset_self]
          rfl
        · rw [hset_ne _ hrc2]
          exact G.ringLive hr
    · intro c m hm
      by_cases hrc2 : ring = cur
      · rw [hrc2, hset_self] at hm
        cases hm
        exact c n (hrc2 ▸ hn)
      · rw [hset_ne _ hrc2] at hm
        exact c m hm
  | some mn =>
    have hnxt0 : nxt ≠ 0 := G.live_ne_zero hx
    rw [incref_some hx]
    by_cases hcn : cur = nxt
    · -- advancing onto the same node
      subst hcn
      have hmn : mn = n := by
        rw [hx] at hn
        exact Option.some_injective _ hn
      subst hmn
      have hcc : hset h cur { mn with rc := mn.rc + 1 } cur
          = some { mn with rc := mn.rc + 1 } := hset_self _ _ _
      have hne : ({ mn with rc := mn.rc + 1 } : Node R).rc - 1 ≠ 0 := by
        dsimp only
        omega
      rw [decref_some hcc, if_neg hne]
      dsimp only
      have hnneg : ¬ (({ mn with rc := mn.rc + 1 } : Node R).rc - 1 < 0) := by
        dsimp only
        omega
      refine ⟨by simpa using hnneg, ?_, ?_, ?hpA⟩
      case hpA =>
        exact presEnCb_trans
          (@hset_keep_presEnCb R h cur mn hn { mn with rc := mn.rc + 1 } rfl rfl)
          (@hset_keep_presEnCb R (hset h cur { mn with rc := mn.rc + 1 }) cur
            { mn with rc := mn.rc + 1 } hcc
            { mn with rc := mn.rc + 1 - 1 } rfl rfl)
      · refine ⟨?_, ?_, G.frPos, ?_, ?_, G.ringLt⟩
        · rw [hset_ne _ (Ne.symm hcur0), hset_ne _ (Ne.symm hcur0)]
          exact G.zero
        · intro i hi
          have : i ≠ cur := by
            intro he
            exact absurd (G.live_lt hn) (by omega)
          rw [hset_ne _ this, hset_ne _ this]
          exact G.frOk i hi
        · intro i m him
          by_cases hic : i = cur
          · subst hic
            rw [hset_self] at him
            cases him
            simp only [eq_self_iff_true, if_true]
            by_cases hir : i = ring
            · simp only [if_pos hir] at hrc ⊢
              omega
            · simp only [if_neg hir] at hrc ⊢
              omega
          · rw [hset_ne _ hic, hset_ne _ hic] at him
            have := G.rc i m him
            simp only [if_neg hic] at this ⊢
            omega
        · intro hr
          by_cases hrc2 : ring = cur
          · rw [hrc2, hset_self]
            rfl
          · rw [hset_ne _ hrc2, hset_ne _ hrc2]
            exact G.ringLive hr
      · intro c m hm
        by_cases hrc2 : ring = cur
        · rw [hrc2, hset_self] at hm
          cases hm
          exact c mn (hrc2 ▸ hn)
        · rw [hset_ne _ hrc2, hset_ne _ hrc2] at hm
          exact c m hm
    · -- distinct nodes
      have hcc : hset h nxt { mn with rc := mn.rc + 1 } cur = some n := by
        rw [hset_ne _ hcn]
        exact hn
      have hne : n.rc - 1 ≠ 0 := by omega
      have hnneg : ¬ (n.rc - 1 < 0) := by omega
      rw [decref_some hcc, if_neg hne]
      dsimp only
      have hmrc : mn.rc = (if nxt = ring then 2 else 1) + (if nxt = cur then 1 else 0) :=
        G.rc nxt mn hx
      refine ⟨by simpa using hnneg, ?_, ?_, ?hpB⟩
      case hpB =>
        exact presEnCb_trans
          (@hset_keep_presEnCb R h nxt mn hx { mn with rc := mn.rc + 1 } rfl rfl)
          (@hset_keep_presEnCb R (hset h nxt { mn with rc := mn.rc + 1 }) cur n hcc
            { n with rc := n.rc - 1 } rfl rfl)
      · refine ⟨?_, ?_, G.frPos, ?_, ?_, G.ringLt⟩
        · rw [hset_ne _ (Ne.symm hcur0), hset_ne _ (Ne.symm hnxt0)]
          exact G.zero
        · intro i hi
          have hi1 : i ≠ cur := by
            intro he
            exact absurd (G.live_lt hn) (by omega)
          have hi2 : i ≠ nxt := by
            intro he
            exact absurd (G.live_lt hx) (by omega)
          rw [hset_ne _ hi1, hset_ne _ hi2]
          exact G.frOk i hi
        · intro i m him
          by_cases hic : i = cur
          · subst hic
            rw [hset_self] at him
            cases him
            simp only [if_neg hcn]
            by_cases hir : i = ring
            · simp only [if_pos hir] at hrc ⊢
              omega
            · simp only [if_neg hir] at hrc ⊢
              omega
          · rw [hset_ne _ hic] at him
            by_cases hin : i = nxt
            · subst hin
              rw [hset_self] at him
              cases him
              simp only [if_neg (Ne.symm hcn)] at hmrc
              simp only [eq_self_iff_true, if_true]
              by_cases hir : i = ring
              · simp only [if_pos hir] at hmrc ⊢
                omega
              · simp only [if_neg hir] at hmrc ⊢
                omega
            · rw [hset_ne _ hin] at him
              have := G.rc i m him
              simp only [if_neg hic] at this
              simp only [if_neg hin]
              omega
        · intro hr
          by_cases hrc2 : ring = cur
          · rw [hrc2, hset_self]
            rfl
          · rw [hset_ne _ hrc2]
            by_cases hrn : ring = nxt
            · rw [hrn, hset_self]
              rfl
            · rw [hset_ne _ hrn]
              exact G.ringLive hr
      · intro c m hm
        by_cases hrc2 : ring = cur
        · rw [hrc2, hset_self] at hm
          cases hm
          exact c n (hrc2 ▸ hn)
        · rw [hset_ne _ hrc2] at hm
          by_cases hrn : ring = nxt
          · rw [hrn, hset_self] at hm
            cases hm
            exact c mn (hrn ▸ hx)
          · rw [hset_ne _ hrn] at hm
            exact c m hm

end Signal11

namespace Signal11

theorem ensureRing_id {R : Type} (e : Nat → Bool) {st : St R} (hr : st.ring ≠ 0) :
    ensureRing e st = st := by
  simp [ensureRing, hr]

/-- Splicing a new node before the sentinel preserves the invariant (the new
node is allocated with `refCount = 1` at the fresh address), never touches
the sentinel's callback slot, and keeps every live node live. -/
theorem addBefore_inv {R : Type} {h : Heap R} {ring fresh cur : Nat}
    (c : Option (CB R)) (eb : Bool)
    (G : GoodH h ring fresh cur) (hr : ring ≠ 0)
    (hc : cur = 0 ∨ (h cur).isSome) :
    GoodH (addBefore h ring c eb fresh).1 ring (fresh + 1) cur ∧
    (cbNone h ring → cbNone (addBefore h ring c eb fresh).1 ring) ∧
    (∀ i, (h i).isSome → ((addBefore h ring c eb fresh).1 i).isSome) ∧
    (addBefore h ring c eb fresh).2 = fresh ∧
    presEnCb h (addBefore h ring c eb fresh).1 := by
  obtain ⟨n, hn⟩ := Option.isSome_iff_exists.mp (G.ringLive hr)
  have hfr : h fresh = none := G.frOk fresh le_rfl
  have hrf : ring ≠ fresh := Nat.ne_of_lt (G.ringLt hr)
  have hcf : cur ≠ fresh := by
    rcases hc with h0 | hs
    · have := G.frPos
      omega
    · obtain ⟨m, hm⟩ := Option.isSome_iff_exists.mp hs
      intro he
      rw [he, hfr] at hm
      exact Option.noConfusion hm
  have hAB : addBefore h ring c eb fresh
      = (adjust (adjust (hset h fresh { next := ring, prev := n.prev, cb := c, rc := 1, en := eb })
          n.prev (fun m => { m with next := fresh })) ring
          (fun m => { m with prev := fresh }), fresh) := by
    simp only [addBefore, hn]
  rw [hAB]
  dsimp only
  have s13 : sameRcCb (hset h fresh { next := ring, prev := n.prev, cb := c, rc := 1, en := eb })
      (adjust (adjust (hset h fresh { next := ring, prev := n.prev, cb := c, rc := 1, en := eb })
        n.prev (fun m => { m with next := fresh })) ring (fun m => { m with prev := fresh })) :=
    sameRcCb_trans (adjust_sameRcCb _ n.prev (fun m => { m with next := fresh }) (fun m => ⟨rfl, rfl⟩))
      (adjust_sameRcCb _ ring (fun m => { m with prev := fresh }) (fun m => ⟨rfl, rfl⟩))
  have h1look : ∀ i, i ≠ fresh →
      hset h fresh { next := ring, prev := n.prev, cb := c, rc := 1, en := eb } i = h i :=
    fun i hi => hset_ne _ hi
  refine ⟨?_, ?_, ?_, rfl, ?hpAB⟩
  case hpAB =>
    exact presEnCb_trans (hset_fresh_presEnCb hfr _)
      (presEnCb_trans
        (adjust_presEnCb _ n.prev (fun m => { m with next := fresh }) (fun m => ⟨rfl, rfl⟩))
        (adjust_presEnCb _ ring (fun m => { m with prev := fresh }) (fun m => ⟨rfl, rfl⟩)))
  · refine ⟨?_, ?_, by omega, ?_, ?_, fun _ => by have := G.ringLt hr; omega⟩
    · apply sameRcCb_none s13
      rw [h1look 0 (by have := G.frPos; omega)]
      exact G.zero
    · intro i hi
      apply sameRcCb_none s13
      rw [h1look i (by omega)]
      exact G.frOk i (by omega)
    · intro i m him
      obtain ⟨m1, hm1, hrc1, _⟩ := sameRcCb_some s13 him
      by_cases hif : i = fresh
      · subst hif
        rw [hset_self] at hm1
        cases hm1
        rw [← hrc1]
        simp only [if_neg (Ne.symm hrf), if_neg (Ne.symm hcf)]
        rfl
      · rw [h1look i hif] at hm1
        rw [← hrc1]
        exact G.rc i m1 hm1
    · intro hr2
      rw [sameRcCb_isSome s13, h1look ring hrf, hn]
      rfl
  · intro cbn m hm
    obtain ⟨m1, hm1, _, hcb1⟩ := sameRcCb_some s13 hm
    rw [h1look ring hrf] at hm1
    rw [← hcb1]
    exact cbn m1 hm1
  · intro i hi
    rw [sameRcCb_isSome s13]
    by_cases hif : i = fresh
    · subst hif
      rw [hset_self]
      rfl
    · rw [h1look i hif]
      exact hi

/-- Materialising the ring: the sentinel is allocated at the fresh address
with an empty callback slot and its two anchor references. -/
theorem ensureRing_zero_inv {R : Type} (e : Nat → Bool) {st : St R} {cur : Nat}
    (hz : st.ring = 0) (G : GoodH st.heap st.ring st.fresh cur)
    (hc : cur = 0 ∨ (st.heap cur).isSome) :
    (ensureRing e st).ring = st.fresh ∧ (ensureRing e st).fresh = st.fresh + 1 ∧
    GoodH (ensureRing e st).heap st.fresh (st.fresh + 1) cur ∧
    cbNone (ensureRing e st).heap st.fresh ∧
    (∀ i, (st.heap i).isSome → ((ensureRing e st).heap i).isSome) ∧
    presEnCb st.heap (ensureRing e st).heap := by
  have hfr : st.heap st.fresh = none := G.frOk st.fresh le_rfl
  have hcf : cur ≠ st.fresh := by
    rcases hc with h0 | hs
    · have := G.frPos
      omega
    · obtain ⟨m, hm⟩ := Option.isSome_iff_exists.mp hs
      intro he
      rw [he, hfr] at hm
      exact Option.noConfusion hm
  rw [ensureRing, if_pos hz]
  dsimp only
  refine ⟨rfl, rfl, ?_, ?_, ?_, hset_fresh_presEnCb hfr _⟩
  · refine ⟨?_, ?_, by omega, ?_, ?_, by omega⟩
    · rw [hset_ne _ (by have := G.frPos; omega : (0:Nat) ≠ st.fresh)]
      exact G.zero
    · intro i hi
      rw [hset_ne _ (by omega : i ≠ st.fresh)]
      exact G.frOk i (by omega)
    · intro i m him
      by_cases hif : i = st.fresh
      · subst hif
        rw [hset_self] at him
        cases him
        simp only [eq_self_iff_true, if_true, if_neg (Ne.symm hcf)]
        norm_num
      · rw [hset_ne _ hif] at him
        have := G.rc i m him
        have hi0 : i ≠ 0 := G.live_ne_zero him
        rw [hz] at this
        simp only [if_neg hi0] at this
        simp only [if_neg hif]
        exact this
    · intro _
      rw [hset_self]
      rfl
  · intro m hm
    rw [hset_self] at hm
    cases hm
    rfl
  · intro i hi
    by_cases hif : i = st.fresh
    · subst hif
      rw [hset_self]
      rfl
    · rw [hset_ne _ hif]
      exact hi

/-- `connect` preserves the invariant: the ring is materialised if needed,
the new node is spliced in with one reference, the sentinel's callback slot
is untouched (and empty when it was just materialised), and the returned
handle is a non-sentinel address below the new `fresh`. -/
theorem connect_inv {R : Type} (e : Nat → Bool) {st : St R} (c : CB R) {cur : Nat}
    (G : GoodH st.heap st.ring st.fresh cur)
    (hc : cur = 0 ∨ (st.heap cur).isSome) :
    GoodH (connect e st c).1.heap (connect e st c).1.ring (connect e st c).1.fresh cur ∧
    st.fresh ≤ (connect e st c).1.fresh ∧
    (st.ring ≠ 0 → (connect e st c).1.ring = st.ring) ∧
    (st.ring = 0 → (connect e st c).1.ring = st.fresh) ∧
    (connect e st c).1.ring ≠ 0 ∧
    (cbNone st.heap st.ring → cbNone (connect e st c).1.heap (connect e st c).1.ring) ∧
    (∀ i, (st.heap i).isSome → ((connect e st c).1.heap i).isSome) ∧
    (connect e st c).2 ≠ (connect e st c).1.ring ∧
    (connect e st c).2 < (connect e st c).1.fresh ∧
    presEnCb st.heap (connect e st c).1.heap := by
  by_cases hz : st.ring = 0
  · obtain ⟨hring, hfresh, G1, hcb1, hpres1, hpe1⟩ := ensureRing_zero_inv e hz G hc
    have hr1 : (ensureRing e st).ring ≠ 0 := by
      rw [hring]
      have := G.frPos
      omega
    have hc1 : cur = 0 ∨ ((ensureRing e st).heap cur).isSome := by
      rcases hc with h0 | hs
      · exact Or.inl h0
      · exact Or.inr (by
          obtain ⟨m, hm⟩ := Option.isSome_iff_exists.mp hs
          exact hpres1 cur (by rw [hm]; rfl))
    have G1' : GoodH (ensureRing e st).heap (ensureRing e st).ring (ensureRing e st).fresh cur := by
      rw [hring, hfresh]
      exact G1
    obtain ⟨GA, hcbA, hpresA, hretA, hpeA⟩ :=
      addBefore_inv (some c) (e (ensureRing e st).fresh) G1' hr1 hc1
    refine ⟨?_, ?_, ?_, ?_, ?_, ?_, ?_, ?_, ?_, presEnCb_trans hpe1 hpeA⟩
    · exact GA
    · show st.fresh ≤ (ensureRing e st).fresh + 1
      rw [hfresh]
      omega
    · intro hne
      exact absurd hz hne
    · intro _
      exact hring
    · exact hr1
    · intro _
      show cbNone (addBefore (ensureRing e st).heap (ensureRing e st).ring (some c) _ _).1
          (ensureRing e st).ring
      apply hcbA
      rw [hring]
      exact hcb1
    · intro i hi
      exact hpresA i (hpres1 i hi)
    · show (addBefore _ _ _ _ _).2 ≠ (ensureRing e st).ring
      rw [hretA, hring, hfresh]
      omega
    · show (addBefore _ _ _ _ _).2 < (ensureRing e st).fresh + 1
      rw [hretA]
      omega
  · rw [connect]
    rw [ensureRing_id e hz]
    dsimp only
    obtain ⟨GA, hcbA, hpresA, hretA, hpeA⟩ := addBefore_inv (some c) (e st.fresh) G hz hc
    refine ⟨GA, by omega, fun _ => rfl, fun h0 => absurd h0 hz, hz, hcbA, hpresA, ?_, ?_, hpeA⟩
    · rw [hretA]
      exact Ne.symm (Nat.ne_of_lt (G.ringLt hz))
    · rw [hretA]
      omega

end Signal11

namespace Signal11

/-- Invoking a callback during emission preserves the invariant: a plain
callback changes nothing, a reentrant connect splices one node in. -/
theorem runCB_inv {R : Type} (e : Nat → Bool) {st : St R} (c : CB R) {ring cur : Nat}
    (hre : st.ring = ring) (hr : ring ≠ 0)
    (G : GoodH st.heap ring st.fresh cur)
    (hc : cur = 0 ∨ (st.heap cur).isSome) :
    GoodH (runCB e st c).1.heap ring (runCB e st c).1.fresh cur ∧
    (runCB e st c).1.ring = ring ∧
    st.fresh ≤ (runCB e st c).1.fresh ∧
    (cbNone st.heap ring → cbNone (runCB e st c).1.heap ring) ∧
    (∀ i, (st.heap i).isSome → ((runCB e st c).1.heap i).isSome) ∧
    presEnCb st.heap (runCB e st c).1.heap := by
  subst hre
  cases c with
  | ret r => exact ⟨G, rfl, le_rfl, fun x => x, fun i hi => hi, presEnCb_refl _⟩
  | connectRet cone r =>
    obtain ⟨GA, hfA, hrA, _, _, hcbA, hpresA, _, _, hpeA⟩ := connect_inv e cone G hc
    have hre : (connect e st cone).1.ring = st.ring := hrA hr
    rw [runCB]
    dsimp only
    refine ⟨?_, hre, hfA, ?_, hpresA, hpeA⟩
    · rw [← hre]
      exact GA
    · intro hcb
      rw [← hre]
      exact hcbA hcb

/-- The initial `link->incref()` on the sentinel at the start of `emit`. -/
theorem incref_start {R : Type} {h : Heap R} {ring fresh : Nat}
    (G : GoodH h ring fresh 0) (hr : ring ≠ 0) :
    GoodH (incref h ring) ring fresh ring ∧
    (cbNone h ring → cbNone (incref h ring) ring) ∧
    presEnCb h (incref h ring) := by
  obtain ⟨n, hn⟩ := Option.isSome_iff_exists.mp (G.ringLive hr)
  have hrc : n.rc = 2 := by
    have := G.rc ring n hn
    simp only [eq_self_iff_true, if_true, if_neg hr] at this
    omega
  rw [incref_some hn]
  refine ⟨?_, ?_, hset_keep_presEnCb hn rfl rfl⟩
  · refine ⟨?_, ?_, G.frPos, ?_, ?_, G.ringLt⟩
    · rw [hset_ne _ (Ne.symm hr)]
      exact G.zero
    · intro i hi
      have hir : i ≠ ring := by
        have := G.ringLt hr
        omega
      rw [hset_ne _ hir]
      exact G.frOk i hi
    · intro i m him
      by_cases hir : i = ring
      · subst hir
        rw [hset_self] at him
        cases him
        simp only [eq_self_iff_true, if_true]
        show n.rc + 1 = 2 + 1
        rw [hrc]
      · rw [hset_ne _ hir] at him
        have := G.rc i m him
        have hi0 : i ≠ 0 := G.live_ne_zero him
        simp only [if_neg hir, if_neg hi0] at this ⊢
        exact this
    · intro _
      rw [hset_self]
      rfl
  · intro cbn m hm
    rw [hset_self] at hm
    cases hm
    exact cbn n hn

theorem ite_adjust_sameRcCb {R : Type} (h : Heap R) (b : Prop) [Decidable b]
    (j : Nat) (f : Node R → Node R) (hf : ∀ n, (f n).rc = n.rc ∧ (f n).cb = n.cb) :
    sameRcCb h (if b then adjust h j f else h) := by
  split
  · exact adjust_sameRcCb h j f hf
  · exact sameRcCb_refl h

/-- `unlink` of a non-sentinel node under the invariant: the node held
exactly one reference, so the trailing `decref` frees it without firing the
assertion; the neighbours only have their `prev`/`next` rewired. -/
theorem unlink_inv {R : Type} {h : Heap R} {ring fresh t : Nat}
    (G : GoodH h ring fresh 0) (ht : t ≠ ring) :
    (unlink h t).2 = false ∧ GoodH (unlink h t).1 ring fresh 0 ∧
    (cbNone h ring → cbNone (unlink h t).1 ring) := by
  cases hn : h t with
  | none =>
    rw [unlink, hn]
    exact ⟨rfl, G, fun x => x⟩
  | some n =>
    have ht0 : t ≠ 0 := G.live_ne_zero hn
    have htf : t < fresh := G.live_lt hn
    have hrc : n.rc = 1 := by
      have := G.rc t n hn
      simp only [if_neg ht, if_neg ht0] at this
      omega
    rw [unlink, hn]
    dsimp only
    set h1 := hset h t { n with cb := none } with hh1
    set h2 := if n.next ≠ 0 then adjust h1 n.next (fun m => { m with prev := n.prev }) else h1
      with hh2
    set h3 := if n.prev ≠ 0 then adjust h2 n.prev (fun m => { m with next := n.next }) else h2
      with hh3
    have s13 : sameRcCb h1 h3 := by
      rw [hh3, hh2]
      exact sameRcCb_trans
        (ite_adjust_sameRcCb h1 _ n.next (fun m => { m with prev := n.prev })
          (fun m => ⟨rfl, rfl⟩))
        (ite_adjust_sameRcCb _ _ n.prev (fun m => { m with next := n.next })
          (fun m => ⟨rfl, rfl⟩))
    have h1t : h1 t = some { n with cb := none } := hset_self _ _ _
    have h1ne : ∀ i, i ≠ t → h1 i = h i := fun i hi => hset_ne _ hi
    have h3t : ∃ m3, h3 t = some m3 ∧ m3.rc = 1 ∧ m3.cb = none := by
      have := (s13 t).1
      have hcbeq := (s13 t).2
      rw [h1t] at this hcbeq
      cases hx : h3 t with
      | none => rw [hx] at this; simp at this
      | some m3 =>
        rw [hx] at this hcbeq
        simp at this hcbeq
        exact ⟨m3, rfl, by rw [this]; exact hrc, hcbeq⟩
    obtain ⟨m3, hm3, hm3rc, hm3cb⟩ := h3t
    have hdec : decref h3 t = (hdel h3 t, false) := by
      rw [decref_some hm3, if_pos (by omega)]
    rw [hdec]
    dsimp only
    refine ⟨rfl, ?_, ?_⟩
    · refine ⟨?_, ?_, G.frPos, ?_, ?_, G.ringLt⟩
      · rw [hdel_ne _ (Ne.symm ht0)]
        apply sameRcCb_none s13
        rw [h1ne 0 (Ne.symm ht0)]
        exact G.zero
      · intro i hi
        have hit : i ≠ t := by omega
        rw [hdel_ne _ hit]
        apply sameRcCb_none s13
        rw [h1ne i hit]
        exact G.frOk i hi
      · intro i m him
        by_cases hit : i = t
        · subst hit
          rw [hdel_self] at him
          exact Option.noConfusion him
        · rw [hdel_ne _ hit] at him
          obtain ⟨m1, hm1, hrc1, _⟩ := sameRcCb_some s13 him
          rw [h1ne i hit] at hm1
          rw [← hrc1]
          exact G.rc i m1 hm1
      · intro hr
        rw [hdel_ne _ (Ne.symm ht)]
        rw [sameRcCb_isSome s13, h1ne ring (Ne.symm ht)]
        exact G.ringLive hr
    · intro cbn m hm
      rw [hdel_ne _ (Ne.symm ht)] at hm
      obtain ⟨m1, hm1, _, hcb1⟩ := sameRcCb_some s13 hm
      rw [h1ne ring (Ne.symm ht)] at hm1
      rw [← hcb1]
      exact cbn m1 hm1

/-- The `removeSibling` scan under the invariant: the only mutation is the
final `unlink` of the (non-sentinel) target, and no assertion fires. -/
theorem sibLoop_inv {R : Type} {ring fresh target self : Nat} (ht : target ≠ ring) :
    ∀ (fuel cur : Nat) (h : Heap R) (out : Heap R × Bool × Bool),
      sibLoop h self target cur fuel = some out →
      GoodH h ring fresh 0 →
      out.2.2 = false ∧ GoodH out.1 ring fresh 0 ∧
      (cbNone h ring → cbNone out.1 ring) := by
  intro fuel
  induction fuel with
  | zero =>
    intro cur h out hq
    simp [sibLoop] at hq
  | succ fuel ih =>
    intro cur h out hq G
    rw [sibLoop] at hq
    by_cases h1 : cur = self
    · rw [if_pos h1] at hq
      cases hq
      exact ⟨rfl, G, fun x => x⟩
    · rw [if_neg h1] at hq
      by_cases h2 : cur = target
      · rw [if_pos h2] at hq
        cases hq
        subst h2
        obtain ⟨hf, G2, hcb⟩ := unlink_inv G ht
        exact ⟨hf, G2, hcb⟩
      · rw [if_neg h2] at hq
        exact ih _ _ _ hq G

theorem removeLink_inv {R : Type} {h : Heap R} {ring fresh i fuel : Nat}
    {out : Heap R × Bool × Bool}
    (hq : removeLink h i fuel = some out) (G : GoodH h ring fresh 0) (hi : i ≠ ring) :
    out.2.2 = false ∧ GoodH out.1 ring fresh 0 ∧
    (cbNone h ring → cbNone out.1 ring) := by
  rw [removeLink] at hq
  by_cases h0 : nextOf h i = 0
  · rw [if_pos h0] at hq
    cases hq
    exact ⟨rfl, G, fun x => x⟩
  · rw [if_neg h0] at hq
    rw [removeSibling] at hq
    exact sibLoop_inv hi _ _ _ _ hq G

end Signal11

namespace Signal11

theorem emitLoop_some_cur {R ρ σ : Type} (E : Col R ρ σ) (e : Nat → Bool)
    (ring fuel : Nat) (st : St R) (cur : Nat) (acc : σ) (tr : List Nat) (fl : Bool)
    (out : St R × σ × List Nat × Bool)
    (hq : emitLoop E e ring fuel st cur acc tr fl = some out) :
    (st.heap cur).isSome := by
  cases fuel with
  | zero => simp [emitLoop] at hq
  | succ fuel =>
    rw [emitLoop] at hq
    cases hcur : st.heap cur with
    | none =>
      rw [hcur] at hq
      exact Option.noConfusion hq
    | some n =>
      simp [hcur]

/-- The central invariant of the emission walk: under the well-formedness
invariant (with the cursor's extra reference), a successful walk never fires
an assertion, restores the cursor-free invariant, leaves the ring anchor
consistent, preserves every pre-existing node's callback slot and enabled
flag, and only ever invokes (appends to the trace) addresses that held an
enabled node with a non-null callback — or nodes connected during this very
emission; when the sentinel's callback slot is empty it stays empty. -/
theorem emitLoop_inv {R ρ σ : Type} (E : Col R ρ σ) (e : Nat → Bool) (ring : Nat)
    (hr : ring ≠ 0) :
    ∀ (fuel : Nat) (st : St R) (cur : Nat) (acc : σ) (tr : List Nat) (fl : Bool)
      (out : St R × σ × List Nat × Bool),
      emitLoop E e ring fuel st cur acc tr fl = some out →
      st.ring = ring →
      GoodH st.heap ring st.fresh cur →
      out.1.ring = ring ∧ st.fresh ≤ out.1.fresh ∧
      GoodH out.1.heap ring out.1.fresh 0 ∧
      out.2.2.2 = fl ∧
      (cbNone st.heap ring →
        cbNone out.1.heap ring ∧ ∀ j ∈ out.2.2.1, j ∈ tr ∨ j ≠ ring) ∧
      presEnCb st.heap out.1.heap ∧
      traceOK st.heap tr out.2.2.1 := by
  intro fuel
  induction fuel with
  | zero =>
    intro st cur acc tr fl out hq
    simp [emitLoop] at hq
  | succ fuel ih =>
    intro st cur acc tr fl out hq hring G
    rw [emitLoop] at hq
    cases hcur : st.heap cur with
    | none =>
      rw [hcur] at hq
      exact Option.noConfusion hq
    | some n =>
      simp only [hcur] at hq
      cases hcb : n.cb with
      | none =>
        -- skip: not invoked, advance directly
        simp only [hcb] at hq
        simp only [if_true] at hq
        by_cases hnr : nextOf st.heap cur = ring
        · rw [if_pos hnr, hnr] at hq
          obtain ⟨hdf, G2, hcb2, hp2⟩ := advance_inv ring G hcur
          obtain ⟨m, hm⟩ := Option.isSome_iff_exists.mp (G2.ringLive hr)
          obtain ⟨hdf2, G3, hcb3, hp3⟩ := cursor_decref G2 hm
          cases hq
          refine ⟨hring, le_rfl, G3, ?_, ?_, presEnCb_trans hp2 hp3,
            fun j hj => Or.inl hj⟩
          · dsimp only
            rw [hdf, hdf2]
            simp
          · intro cb0
            exact ⟨hcb3 (hcb2 cb0), fun j hj => Or.inl hj⟩
        · rw [if_neg hnr] at hq
          obtain ⟨hdf, G2, hcb2, hp2⟩ := advance_inv (nextOf st.heap cur) G hcur
          obtain ⟨h1, h2, h3, h4, h5, h6, h7⟩ := ih _ _ _ _ _ _ hq hring G2
          refine ⟨h1, h2, h3, ?_, ?_, presEnCb_trans hp2 h6, traceOK_pull hp2 h7⟩
          · rw [h4, hdf]
            simp
          · intro cb0
            exact h5 (hcb2 cb0)
      | some c =>
        simp only [hcb] at hq
        by_cases hen : n.en = true
        · rw [if_pos hen] at hq
          -- invoked: run the callback, feed the collector
          obtain ⟨Gp, hpr, hpf, hpcb, hppres, hppe⟩ :=
            runCB_inv e c hring hr G (Or.inr (by rw [hcur]; rfl))
          have hpcur : ((runCB e st c).1.heap cur).isSome :=
            hppres cur (by rw [hcur]; rfl)
          obtain ⟨n1, hn1⟩ := Option.isSome_iff_exists.mp hpcur
          have hcurne : cbNone st.heap ring → cur ≠ ring := by
            intro cb0 he
            have := cb0 n (he ▸ hcur)
            rw [hcb] at this
            exact Option.noConfusion this
          have hcurP : (∃ nj, st.heap cur = some nj ∧ nj.en = true ∧ nj.cb ≠ none) :=
            ⟨n, hcur, hen, by rw [hcb]; simp⟩
          have htrc : traceOK st.heap tr (tr ++ [cur]) := by
            intro j hj
            rcases List.mem_append.mp hj with hj1 | hj2
            · exact Or.inl hj1
            · rw [List.mem_singleton.mp hj2]
              exact Or.inr (Or.inl hcurP)
          by_cases hcont : (E.step acc (runCB e st c).2).2 = true
          · rw [if_pos hcont] at hq
            by_cases hnr : nextOf (runCB e st c).1.heap cur = ring
            · rw [if_pos hnr, hnr] at hq
              obtain ⟨hdf, G2, hcb2, hp2⟩ := advance_inv ring Gp hn1
              obtain ⟨m, hm⟩ := Option.isSome_iff_exists.mp (G2.ringLive hr)
              obtain ⟨hdf2, G3, hcb3, hp3⟩ := cursor_decref G2 hm
              cases hq
              refine ⟨hpr, hpf, G3, ?_, ?_,
                presEnCb_trans hppe (presEnCb_trans hp2 hp3), htrc⟩
              · dsimp only
                rw [hdf, hdf2]
                simp
              · intro cb0
                refine ⟨hcb3 (hcb2 (hpcb cb0)), ?_⟩
                intro j hj
                dsimp only at hj
                rcases List.mem_append.mp hj with hj1 | hj2
                · exact Or.inl hj1
                · rw [List.mem_singleton.mp hj2]
                  exact Or.inr (hcurne cb0)
            · rw [if_neg hnr] at hq
              obtain ⟨hdf, G2, hcb2, hp2⟩ := advance_inv (nextOf (runCB e st c).1.heap cur) Gp hn1
              obtain ⟨h1, h2, h3, h4, h5, h6, h7⟩ := ih _ _ _ _ _ _ hq hpr G2
              have hpe2 := presEnCb_trans hppe hp2
              refine ⟨h1, le_trans hpf h2, h3, ?_, ?_, presEnCb_trans hpe2 h6, ?_⟩
              · rw [h4, hdf]
                simp
              · intro cb0
                obtain ⟨ha, hb⟩ := h5 (hcb2 (hpcb cb0))
                refine ⟨ha, ?_⟩
                intro j hj
                rcases hb j hj with hj1 | hj2
                · rcases List.mem_append.mp hj1 with hk1 | hk2
                  · exact Or.inl hk1
                  · rw [List.mem_singleton.mp hk2]
                    exact Or.inr (hcurne cb0)
                · exact Or.inr hj2
              · have h7x := traceOK_pull hpe2 h7
                intro j hj
                rcases h7x j hj with hj1 | hrest
                · rcases List.mem_append.mp hj1 with hk1 | hk2
                  · exact Or.inl hk1
                  · rw [List.mem_singleton.mp hk2]
                    exact Or.inr (Or.inl hcurP)
                · exact Or.inr hrest
          · rw [if_neg hcont] at hq
            -- collector stopped the emission: trailing decref and return
            obtain ⟨hdf, G3, hcb3, hp3⟩ := cursor_decref Gp hn1
            cases hq
            refine ⟨hpr, hpf, G3, ?_, ?_, presEnCb_trans hppe hp3, htrc⟩
            · dsimp only
              rw [hdf]
              simp
            · intro cb0
              refine ⟨hcb3 (hpcb cb0), ?_⟩
              intro j hj
              dsimp only at hj
              rcases List.mem_append.mp hj with hj1 | hj2
              · exact Or.inl hj1
              · rw [List.mem_singleton.mp hj2]
                exact Or.inr (hcurne cb0)
        · rw [if_neg hen] at hq
          simp only [if_true] at hq
          by_cases hnr : nextOf st.heap cur = ring
          · rw [if_pos hnr, hnr] at hq
            obtain ⟨hdf, G2, hcb2, hp2⟩ := advance_inv ring G hcur
            obtain ⟨m, hm⟩ := Option.isSome_iff_exists.mp (G2.ringLive hr)
            obtain ⟨hdf2, G3, hcb3, hp3⟩ := cursor_decref G2 hm
            cases hq
            refine ⟨hring, le_rfl, G3, ?_, ?_, presEnCb_trans hp2 hp3,
              fun j hj => Or.inl hj⟩
            · dsimp only
              rw [hdf, hdf2]
              simp
            · intro cb0
              exact ⟨hcb3 (hcb2 cb0), fun j hj => Or.inl hj⟩
          · rw [if_neg hnr] at hq
            obtain ⟨hdf, G2, hcb2, hp2⟩ := advance_inv (nextOf st.heap cur) G hcur
            obtain ⟨h1, h2, h3, h4, h5, h6, h7⟩ := ih _ _ _ _ _ _ hq hring G2
            refine ⟨h1, h2, h3, ?_, ?_, presEnCb_trans hp2 h6, traceOK_pull hp2 h7⟩
            · rw [h4, hdf]
              simp
            · intro cb0
              exact h5 (hcb2 cb0)

end Signal11

namespace Signal11

/-- `emit` under the invariant: fast path on an unmaterialised ring,
otherwise the reference-counted walk; never fires an assertion, and when
the sentinel's callback slot is empty the sentinel is never invoked. -/
theorem emit_inv {R ρ σ : Type} (E : Col R ρ σ) (e : Nat → Bool) (fuel : Nat)
    {st : St R} {out : St R × ρ × List Nat × Bool}
    (hq : emit E e fuel st = some out)
    (G : GoodH st.heap st.ring st.fresh 0) :
    out.1.ring = st.ring ∧ st.fresh ≤ out.1.fresh ∧
    GoodH out.1.heap out.1.ring out.1.fresh 0 ∧
    out.2.2.2 = false ∧
    (cbNone st.heap st.ring →
      cbNone out.1.heap st.ring ∧ ∀ j ∈ out.2.2.1, j ≠ st.ring) ∧
    (st.ring = 0 → out.1 = st ∧ out.2.2.1 = []) ∧
    presEnCb st.heap out.1.heap ∧
    traceOK st.heap [] out.2.2.1 := by
  rw [emit] at hq
  by_cases hz : st.ring = 0
  · rw [if_pos hz] at hq
    cases hq
    refine ⟨rfl, le_rfl, G, rfl, ?_, fun _ => ⟨rfl, rfl⟩, presEnCb_refl _,
      fun j hj => absurd hj (List.not_mem_nil j)⟩
    intro cb0
    exact ⟨cb0, fun j hj => absurd hj (List.not_mem_nil j)⟩
  · rw [if_neg hz] at hq
    dsimp only at hq
    obtain ⟨Gi, hcbi, hpi⟩ := incref_start G hz
    cases ho : emitLoop E e st.ring fuel
        ({ st with heap := incref st.heap st.ring }) st.ring E.init [] false with
    | none =>
      rw [ho] at hq
      exact Option.noConfusion hq
    | some o =>
      rw [ho] at hq
      obtain ⟨h1, h2, h3, h4, h5, h6, h7⟩ :=
        emitLoop_inv E e st.ring hz fuel _ st.ring E.init [] false o ho rfl Gi
      rw [Option.map_some'] at hq
      cases hq
      dsimp only
      refine ⟨h1, h2, ?_, h4, ?_, fun h0 => absurd h0 hz, presEnCb_trans hpi h6,
        traceOK_pull hpi h7⟩
      · rw [h1]
        exact h3
      · intro cb0
        obtain ⟨ha, hb⟩ := h5 (hcbi cb0)
        refine ⟨ha, fun j hj => ?_⟩
        rcases hb j hj with hj1 | hj2
        · exact absurd hj1 (List.not_mem_nil j)
        · exact hj2

/-- The destructor's unlink loop never fires an assertion under the
invariant: every unlinked node is a non-sentinel node holding exactly one
reference. -/
theorem destroyLoop_inv {R : Type} {ring fresh : Nat} :
    ∀ (fuel : Nat) (h : Heap R) (fl : Bool) (out : Heap R × Bool),
      destroyLoop fuel h ring fl = some out →
      GoodH h ring fresh 0 →
      out.2 = fl ∧ GoodH out.1 ring fresh 0 := by
  intro fuel
  induction fuel with
  | zero =>
    intro h fl out hq
    simp [destroyLoop] at hq
  | succ fuel ih =>
    intro h fl out hq G
    rw [destroyLoop] at hq
    by_cases hnr : nextOf h ring = ring
    · rw [if_pos hnr] at hq
      cases hq
      exact ⟨rfl, G⟩
    · rw [if_neg hnr] at hq
      obtain ⟨hf, G2, _⟩ := unlink_inv G hnr
      obtain ⟨h1, h2⟩ := ih _ _ _ hq G2
      refine ⟨?_, h2⟩
      rw [h1, hf]
      simp

/-- The destructor never fires an assertion on a well-formed state: after
the unlink loop the sentinel still holds exactly its two anchor references,
so the `refCount >= 2` check passes and the two `decref`s free it cleanly. -/
theorem destroy_nofire {R : Type} {st : St R}
    (G : GoodH st.heap st.ring st.fresh 0) :
    ∀ (df : Nat) (o : Heap R × Bool), destroy df st = some o → o.2 = false := by
  intro df o hq
  rw [destroy] at hq
  by_cases hz : st.ring = 0
  · rw [if_pos hz] at hq
    cases hq
    rfl
  · rw [if_neg hz] at hq
    cases hl : destroyLoop df st.heap st.ring false with
    | none =>
      rw [hl] at hq
      exact Option.noConfusion hq
    | some p =>
      rw [hl] at hq
      obtain ⟨ph, pfl⟩ := p
      dsimp only at hq
      obtain ⟨hfl, G2⟩ := destroyLoop_inv df _ _ _ hl G
      dsimp only at hfl
      dsimp only at G2
      obtain ⟨n, hn⟩ := Option.isSome_iff_exists.mp (G2.ringLive hz)
      rw [hn] at hq
      have hrc : n.rc = 2 := by
        have := G2.rc st.ring n hn
        simp only [eq_self_iff_true, if_true, if_neg hz] at this
        omega
      have hd1 : decref ph st.ring
          = (hset ph st.ring { n with rc := n.rc - 1 }, decide (n.rc - 1 < 0)) := by
        rw [decref_some hn, if_neg (by omega)]
      have hn2 : hset ph st.ring { n with rc := n.rc - 1 } st.ring
          = some { n with rc := n.rc - 1 } := hset_self _ _ _
      have hd2 : decref (hset ph st.ring { n with rc := n.rc - 1 }) st.ring
          = (hdel (hset ph st.ring { n with rc := n.rc - 1 }) st.ring, false) := by
        rw [decref_some hn2, if_pos (by dsimp only; omega)]
      dsimp only at hq
      rw [hd1] at hq
      dsimp only at hq
      rw [hd2] at hq
      cases hq
      dsimp only
      rw [hfl, hrc]
      simp

end Signal11

namespace Signal11

/-- A freshly constructed signal satisfies the invariant: either nothing is
allocated, or the sentinel (holding the default callback) is alone in its
ring with its two anchor references. -/
theorem mkSignal_inv {R : Type} (m : Option (CB R)) (e : Nat → Bool) :
    GoodH (mkSignal m e).heap (mkSignal m e).ring (mkSignal m e).fresh 0 := by
  cases m with
  | none =>
    refine ⟨rfl, fun i _ => rfl, le_rfl, ?_, ?_, ?_⟩
    · intro i n hn
      exact Option.noConfusion hn
    · intro h0
      exact absurd rfl h0
    · intro h0
      exact absurd rfl h0
  | some c =>
    have hr : (mkSignal (some c) e).ring = 1 := by
      simp [mkSignal, ensureRing, setCb]
    have hf : (mkSignal (some c) e).fresh = 2 := by
      simp [mkSignal, ensureRing, setCb]
    have hh : ∀ i, (mkSignal (some c) e).heap i
        = if i = 1 then some { next := 1, prev := 1, cb := some c, rc := 2, en := e 1 }
          else none := by
      intro i
      by_cases hi : i = 1 <;> simp [mkSignal, ensureRing, setCb, adjust, hset, hi]
    refine ⟨?_, ?_, ?_, ?_, ?_, ?_⟩
    · rw [hh]
      simp
    · intro i hi
      rw [hf] at hi
      rw [hh]
      simp only [if_neg (by omega : ¬ i = 1)]
    · rw [hf]
      omega
    · intro i n hn
      rw [hh] at hn
      rw [hr]
      by_cases hi : i = 1
      · subst hi
        simp only [if_pos rfl] at hn
        cases hn
        simp
      · simp [hi] at hn
    · intro _
      rw [hr, hh]
      simp
    · intro _
      rw [hr, hf]
      omega

theorem initRun_inv {R : Type} (m : Option (CB R)) (e : Nat → Bool) :
    RunInv (initRun m e) := by
  refine ⟨mkSignal_inv m e, ?_, rfl⟩
  intro ho hmem i hoi
  exact absurd hmem (List.not_mem_nil ho)

theorem initRun_cbinv {R : Type} (e : Nat → Bool) :
    CbInv (initRun (none : Option (CB R)) e) := by
  refine ⟨?_, ?_, ?_⟩
  · intro n hn
    exact Option.noConfusion hn
  · intro t ht
    exact absurd ht (List.not_mem_nil t)
  · intro _ t ht
    exact absurd ht (List.not_mem_nil t)

end Signal11

namespace Signal11

/-- One client operation preserves the run invariant, and preserves the
sentinel-emptiness invariant of a no-default registry. -/
theorem runOp_inv {R ρ σ : Type} (E : Col R ρ σ) (e : Nat → Bool) {r r' : Run R} {op : Op R}
    (hq : runOp E e r op = some r') (I : RunInv r) :
    RunInv r' ∧ (CbInv r → CbInv r') := by
  cases op with
  | connect c =>
    rw [runOp] at hq
    cases hq
    obtain ⟨GA, hfA, hrA, hr0A, hneA, hcbA, hpresA, hhne, hhlt, hpeA⟩ :=
      connect_inv e c I.good (Or.inl rfl)
    refine ⟨⟨GA, ?_, I.fired⟩, ?_⟩
    · intro ho hmem i hoi
      dsimp only at hmem ⊢
      rcases List.mem_append.mp hmem with hold | hnew
      · obtain ⟨hi1, hi2⟩ := I.hOk ho hold i hoi
        constructor
        · by_cases hz : r.st.ring = 0
          · rw [hr0A hz]
            omega
          · rw [hrA hz]
            exact hi1
        · have := hfA
          omega
      · rw [List.mem_singleton.mp hnew] at hoi
        cases hoi
        exact ⟨hhne, hhlt⟩
    · intro C
      refine ⟨hcbA C.cb, ?_, ?_⟩
      · intro t ht j hj
        dsimp only at ht ⊢
        by_cases hz : r.st.ring = 0
        · have htE := C.tr0 hz t ht
          rw [htE] at hj
          exact absurd hj (List.not_mem_nil j)
        · rw [hrA hz]
          exact C.trNe t ht j hj
      · intro h0
        dsimp only at h0
        exact absurd h0 hneA
  | disconnect k fuel =>
    rw [runOp] at hq
    cases hget : r.hs.get? k with
    | none =>
      simp only [hget] at hq
      cases hq
      exact ⟨I, fun C => C⟩
    | some ho =>
      cases ho with
      | none =>
        simp only [hget] at hq
        cases hq
        exact ⟨I, fun C => C⟩
      | some i =>
        simp only [hget] at hq
        cases hrm : removeLink r.st.heap i fuel with
        | none =>
          rw [hrm] at hq
          exact Option.noConfusion hq
        | some trip =>
          obtain ⟨h', b, f⟩ := trip
          rw [hrm] at hq
          dsimp only at hq
          cases hq
          have hmem : (some i : Option Nat) ∈ r.hs := List.get?_mem hget
          obtain ⟨hi1, hi2⟩ := I.hOk _ hmem i rfl
          obtain ⟨hf0, G2, hcb2⟩ := removeLink_inv hrm I.good hi1
          refine ⟨⟨G2, ?_, ?_⟩, ?_⟩
          · intro ho2 hmem2 j hoj
            dsimp only at hmem2 ⊢
            rcases List.mem_or_eq_of_mem_set hmem2 with hin | heq
            · exact I.hOk ho2 hin j hoj
            · rw [heq] at hoj
              exact Option.noConfusion hoj
          · have hf : f = false := hf0
            dsimp only
            rw [I.fired, hf]
            rfl
          · intro C
            exact ⟨hcb2 C.cb, C.trNe, C.tr0⟩
  | setEnabled k b =>
    rw [runOp] at hq
    cases hget : r.hs.get? k with
    | none =>
      simp only [hget] at hq
      cases hq
      exact ⟨I, fun C => C⟩
    | some ho =>
      cases ho with
      | none =>
        simp only [hget] at hq
        cases hq
        exact ⟨I, fun C => C⟩
      | some i =>
        simp only [hget] at hq
        cases hq
        refine ⟨⟨?_, ?_, I.fired⟩, ?_⟩
        · exact sameRcCb_GoodH
            (adjust_sameRcCb _ i _ (fun n => ⟨rfl, rfl⟩)) I.good
        · intro ho2 hmem j hoj
          exact I.hOk ho2 hmem j hoj
        · intro C
          exact ⟨sameRcCb_cbNone (adjust_sameRcCb _ i _ (fun n => ⟨rfl, rfl⟩)) C.cb,
            C.trNe, C.tr0⟩
  | emit fuel =>
    rw [runOp] at hq
    cases hem : emit E e fuel r.st with
    | none =>
      rw [hem] at hq
      exact Option.noConfusion hq
    | some q =>
      obtain ⟨q1, q2, q3, q4⟩ := q
      rw [hem] at hq
      dsimp only at hq
      cases hq
      obtain ⟨h1, h2, h3, h4, h5, h6, h7, h8⟩ := emit_inv E e fuel hem I.good
      dsimp only at h1 h2 h3 h4 h5 h6
      refine ⟨⟨h3, ?_, ?_⟩, ?_⟩
      · intro ho hmem j hoj
        obtain ⟨hi1, hi2⟩ := I.hOk ho hmem j hoj
        dsimp only
        constructor
        · rw [h1]
          exact hi1
        · omega
      · dsimp only
        rw [I.fired, h4]
        rfl
      · intro C
        refine ⟨?_, ?_, ?_⟩
        · rw [h1]
          exact (h5 C.cb).1
        · intro t ht j hj
          dsimp only at ht ⊢
          rcases List.mem_append.mp ht with hold | hnewt
          · rw [h1]
            exact C.trNe t hold j hj
          · rw [List.mem_singleton.mp hnewt] at hj
            rw [h1]
            exact (h5 C.cb).2 j hj
        · intro h0
          dsimp only at h0
          rw [h1] at h0
          intro t ht
          dsimp only at ht
          rcases List.mem_append.mp ht with hold | hnewt
          · exact C.tr0 h0 t hold
          · rw [List.mem_singleton.mp hnewt]
            exact (h6 h0).2

/-- A whole sequence of client operations preserves the invariants. -/
theorem runOps_inv {R ρ σ : Type} (E : Col R ρ σ) (e : Nat → Bool) :
    ∀ (ops : List (Op R)) (r r' : Run R),
      runOps E e r ops = some r' → RunInv r →
      RunInv r' ∧ (CbInv r → CbInv r') := by
  intro ops
  induction ops with
  | nil =>
    intro r r' hq I
    rw [runOps] at hq
    cases hq
    exact ⟨I, fun C => C⟩
  | cons op ops ih =>
    intro r r' hq I
    rw [runOps] at hq
    cases hop : runOp E e r op with
    | none =>
      rw [hop] at hq
      exact Option.noConfusion hq
    | some r1 =>
      rw [hop] at hq
      obtain ⟨I1, hC1⟩ := runOp_inv E e hop I
      obtain ⟨I2, hC2⟩ := ih r1 r' hq I1
      exact ⟨I2, fun C => hC2 (hC1 C)⟩

end Signal11

namespace Signal11

/-- The `removeSibling` scan succeeds on exactly the nodes on the
`next`-chain after `self` (stopping at `self`), and a failed scan leaves
the heap untouched. -/
theorem sibLoop_mem {R : Type} (h : Heap R) (self target : Nat) :
    ∀ (fuel cur : Nat) (out : Heap R × Bool × Bool),
      sibLoop h self target cur fuel = some out →
      (out.2.1 = true ↔ target ∈ chainFrom h self cur fuel) ∧
      (out.2.1 = false → out.1 = h) := by
  intro fuel
  induction fuel with
  | zero =>
    intro cur out hq
    simp [sibLoop] at hq
  | succ fuel ih =>
    intro cur out hq
    rw [sibLoop] at hq
    rw [chainFrom]
    by_cases h1 : cur = self
    · rw [if_pos h1] at hq
      rw [if_pos h1]
      cases hq
      refine ⟨?_, fun _ => rfl⟩
      constructor
      · intro hfalse
        exact absurd hfalse (by simp)
      · intro hmem
        exact absurd hmem (List.not_mem_nil target)
    · rw [if_neg h1] at hq
      rw [if_neg h1]
      by_cases h2 : cur = target
      · rw [if_pos h2] at hq
        cases hq
        constructor
        · constructor
          · intro _
            rw [← h2]
            exact List.mem_cons_self cur _
          · intro _
            rfl
        · intro hfalse
          exact absurd hfalse (by simp)
      · rw [if_neg h2] at hq
        obtain ⟨ihm, ihh⟩ := ih _ _ hq
        constructor
        · rw [ihm]
          constructor
          · intro hmem
            exact List.mem_cons_of_mem _ hmem
          · intro hmem
            rcases List.mem_cons.mp hmem with he | hm
            · exact absurd he.symm h2
            · exact hm
        · exact ihh

theorem removeSibling_mem {R : Type} {h : Heap R} {self target fuel : Nat}
    {out : Heap R × Bool × Bool} (hq : removeSibling h self target fuel = some out) :
    (out.2.1 = true ↔ reachableSib h self target fuel) ∧
    (out.2.1 = false → out.1 = h) := by
  rw [removeSibling] at hq
  exact sibLoop_mem h self target fuel _ _ hq

end Signal11



namespace Signal11

/-- Disabling a connected node makes every emission skip it: the node's
address never appears in the emission trace, and the node survives the
emission with its callback intact and its flag still `false`.  This holds
for every well-formed state, every collector, every fuel and every value of
the uninitialised enabled flags. -/
theorem emit_skips_disabled {R ρ σ : Type} (E : Col R ρ σ) (e : Nat → Bool)
    (fuel : Nat) {st : St R} (i : Nat) {n : Node R}
    {out : St R × ρ × List Nat × Bool}
    (G : GoodH st.heap st.ring st.fresh 0)
    (hn : st.heap i = some n)
    (hq : emit E e fuel (setEnabledSt st i false) = some out) :
    i ∉ out.2.2.1 ∧
    ∃ n1, out.1.heap i = some n1 ∧ n1.cb = n.cb ∧ n1.en = false := by
  have hd : (setEnabledSt st i false).heap i = some { n with en := false } := by
    rw [setEnabledSt]
    dsimp only
    rw [adjust_self, hn]
    rfl
  have Gd : GoodH (setEnabledSt st i false).heap (setEnabledSt st i false).ring
      (setEnabledSt st i false).fresh 0 :=
    sameRcCb_GoodH (adjust_sameRcCb _ i _ (fun m => ⟨rfl, rfl⟩)) G
  obtain ⟨_, _, _, _, _, _, hpe, htr⟩ := emit_inv E e fuel hq Gd
  constructor
  · intro hmem
    rcases htr i hmem with hnil | hsome | hnone
    · exact absurd hnil (List.not_mem_nil i)
    · obtain ⟨nj, hnj, hje, _⟩ := hsome
      rw [hd] at hnj
      cases hnj
      exact Bool.noConfusion hje
    · rw [hd] at hnone
      exact Option.noConfusion hnone
  · obtain ⟨n1, hn1, hc1, he1⟩ := hpe i { n with en := false } hd
    exact ⟨n1, hn1, hc1, he1⟩

end Signal11

namespace Signal11

/-- C1: the claim says that connecting callbacks A, B, C and emitting with
the Vector collector invokes each exactly once in connection order.  The
code never initialises the `_enabled` flag of a fresh node
(`ProtoSignalLink` has no constructor and `SignalLink`'s constructor skips
`_enabled`), so the behaviour depends on indeterminate memory: evaluated at
the failing input where B's uninitialised flag reads `false` (and all
others read `true`), the emission invokes only A and C — trace `[2, 4]`,
results `[10, 30]` — and B (node 3) is silently skipped. -/
theorem c1_uninitialized_enabled_skips_callback :
    (emit (colVector Nat) offAt3 10
        (connect3 offAt3 (CB.ret 10) (CB.ret 20) (CB.ret 30))).map
      (fun o => (o.2.1, o.2.2.1)) = some ([10, 30], [2, 4]) ∧
    (3 : Nat) ∉ ([2, 4] : List Nat) := by
  decide

/-- Supporting fact for C1 (not itself the claim): in a run where every
uninitialised `_enabled` flag happens to read `true`, the claimed behaviour
does hold — callbacks invoked exactly once each, in connection order
(nodes 2, 3, 4), with the Vector collector returning the results in that
order. -/
theorem vector_emit_in_connection_order_when_enabled :
    (emit (colVector Nat) allOn 10
        (connect3 allOn (CB.ret 10) (CB.ret 20) (CB.ret 30))).map
      (fun o => (o.2.1, o.2.2.1)) = some ([10, 20, 30], [2, 3, 4]) := by
  decide

/-- C2 counterexample: a registry constructed with a non-null default
callback stores that callback in the sentinel node (address 1), whose slot
is therefore not empty, and an emission (here with the uninitialised
enabled flags reading `true`) invokes the sentinel: the trace is `[1]` and
the default callback's value 5 is collected. -/
theorem c2_default_callback_stored_in_sentinel_and_invoked :
    (mkSignal (some (CB.ret 5)) allOn).ring = 1 ∧
    (mkSignal (some (CB.ret 5)) allOn).heap 1
      = some { next := 1, prev := 1, cb := some (CB.ret 5), rc := 2, en := true } ∧
    (emit (colLast Nat 0) allOn 10 (mkSignal (some (CB.ret 5)) allOn)).map
      (fun o => (o.2.1, o.2.2.1)) = some (5, [1]) := by
  decide

/-- C2 amended: for a registry constructed WITHOUT a default callback, in
every state reachable by client operations (connect, disconnect, toggle,
emit — any collector, any fuels, any values of the uninitialised enabled
flags) the sentinel's callback slot is empty, and no emission ever invoked
the sentinel node. -/
theorem c2_sentinel_empty_and_never_invoked_without_default :
    ∀ (ρ σ : Type) (E : Col Nat ρ σ) (e : Nat → Bool) (ops : List (Op Nat)) (r' : Run Nat),
      runOps E e (initRun none e) ops = some r' →
      (∀ n, r'.st.heap r'.st.ring = some n → n.cb = none) ∧
      (∀ t ∈ r'.traces, ∀ j ∈ t, j ≠ r'.st.ring) := by
  intro ρ σ E e ops r' hq
  obtain ⟨_, hC⟩ := runOps_inv E e ops _ _ hq (initRun_inv none e)
  obtain ⟨hcb, htr, _⟩ := hC (initRun_cbinv e)
  exact ⟨hcb, htr⟩

theorem c2_sentinel_empty_and_never_invoked_without_default_witness :
    ∃ r' : Run Nat,
      runOps (colVector Nat) allOn (initRun none allOn)
          [Op.connect (CB.ret 7), Op.emit 10] = some r' ∧
      (∀ n, r'.st.heap r'.st.ring = some n → n.cb = none) ∧
      (∀ t ∈ r'.traces, ∀ j ∈ t, j ≠ r'.st.ring) := by
  have h := c2_sentinel_empty_and_never_invoked_without_default _ _ (colVector Nat) allOn
    [Op.connect (CB.ret 7), Op.emit 10] _ rfl
  exact ⟨_, rfl, h⟩

/-- C3 counterexample: with the Until0 collector (continue while the value
is truthy, exactly as the spec's collector table says) and handlers
returning `false, true, false`, the emission stops after the FIRST handler
— trace `[2]` — and the result is `false`, not `true`; the claimed
scenario (`stops after the second handler, result == true`) is false as
stated. -/
theorem c3_until0_stops_after_first_handler :
    (emit colUntil0 allOn 10
        (connect3 allOn (CB.ret false) (CB.ret true) (CB.ret false))).map
      (fun o => (o.2.1, o.2.2.1)) = some (false, [2]) ∧
    (emit colUntil0 allOn 10
        (connect3 allOn (CB.ret false) (CB.ret true) (CB.ret false))).map
      (fun o => (o.2.1, o.2.2.1)) ≠ some (true, [2, 3]) := by
  decide

/-- C3 amended: the described stop-after-the-second-handler scenario is the
While0 collector's (continue while the value is falsy).  With While0 and
handlers returning `false, true, false` (their uninitialised enabled flags
reading `true`), emit stops after the second handler — trace `[2, 3]` —
the third handler (node 4) is never invoked, and the result is `true`. -/
theorem c3_while0_scenario :
    (emit colWhile0 allOn 10
        (connect3 allOn (CB.ret false) (CB.ret true) (CB.ret false))).map
      (fun o => (o.2.1, o.2.2.1)) = some (true, [2, 3]) ∧
    (4 : Nat) ∉ ([2, 3] : List Nat) := by
  decide

/-- C4: a `ConnectionRef`'s first `disconnect()` nulls its stored link and
returns `true` exactly when the target is actually connected (on the
`next`-chain of the `removeSibling` self-consistency search); every
subsequent `disconnect()` through the same (now nulled) handle returns
`false` and leaves the registry completely unchanged, and a failed first
disconnect also leaves the heap unchanged. -/
theorem c4_disconnect_second_call_false_no_mutation :
    ∀ (st : St Nat) (i fuel df : Nat) (b : Bool) (h2 : Option Nat) (st2 : St Nat),
      crefDisconnect st (some i) fuel = some (b, h2, st2) →
      h2 = none ∧
      crefDisconnect st2 h2 df = some (false, none, st2) ∧
      (b = true ↔ nextOf st.heap i ≠ 0 ∧
        reachableSib st.heap (nextOf st.heap i) i fuel) ∧
      (b = false → st2 = st) := by
  intro st i fuel df b h2 st2 hq
  rw [crefDisconnect] at hq
  cases hrm : removeLink st.heap i fuel with
  | none =>
    rw [hrm] at hq
    exact Option.noConfusion hq
  | some trip =>
    obtain ⟨h', b', f⟩ := trip
    rw [hrm] at hq
    dsimp only at hq
    cases hq
    refine ⟨rfl, rfl, ?_, ?_⟩
    · rw [removeLink] at hrm
      by_cases h0 : nextOf st.heap i = 0
      · rw [if_pos h0] at hrm
        cases hrm
        constructor
        · intro ht
          exact absurd ht (by simp)
        · rintro ⟨hne, _⟩
          exact absurd h0 hne
      · rw [if_neg h0] at hrm
        obtain ⟨hmm, _⟩ := removeSibling_mem hrm
        constructor
        · intro hb
          exact ⟨h0, hmm.mp hb⟩
        · rintro ⟨_, hreach⟩
          exact hmm.mpr hreach
    · intro hbf
      rw [removeLink] at hrm
      by_cases h0 : nextOf st.heap i = 0
      · rw [if_pos h0] at hrm
        cases hrm
        rfl
      · rw [if_neg h0] at hrm
        obtain ⟨_, hh⟩ := removeSibling_mem hrm
        have he : h' = st.heap := hh hbf
        rw [he]

theorem c4_disconnect_second_call_false_no_mutation_witness :
    ∃ (b : Bool) (h2 : Option Nat) (st2 : St Nat),
      crefDisconnect ((connect allOn (mkSignal none allOn) (CB.ret 0)).1) (some 2) 9
          = some (b, h2, st2) ∧
      (h2 = none ∧
       crefDisconnect st2 h2 9 = some (false, none, st2) ∧
       (b = true ↔ nextOf ((connect allOn (mkSignal none allOn) (CB.ret 0)).1).heap 2 ≠ 0 ∧
         reachableSib ((connect allOn (mkSignal none allOn) (CB.ret 0)).1).heap
           (nextOf ((connect allOn (mkSignal none allOn) (CB.ret 0)).1).heap 2) 2 9) ∧
       (b = false → st2 = (connect allOn (mkSignal none allOn) (CB.ret 0)).1)) := by
  refine ⟨_, _, _, rfl, ?_⟩
  exact c4_disconnect_second_call_false_no_mutation _ 2 9 9 _ _ _ rfl

end Signal11

namespace Signal11

/-- C5: the claim says a handler that connects a new handler during
emission has the new handler invoked in that same pass (the iterator
re-reads `next` after the callback).  The splice itself does happen, but
the fresh node's uninitialised `_enabled` flag decides whether the new
handler actually runs: at the failing input where that flag reads `false`
(node 3 fresh during emission), the new node IS spliced into the ring
(next 1, prev 2, callback stored, refcount 1) yet it is NOT invoked —
trace `[2]` only, results `[5]`. -/
theorem c5_reentrant_connect_spliced_but_skipped :
    (emit (colVector Nat) offAt3 10
        ((connect offAt3 (mkSignal none offAt3) (CB.connectRet (CB.ret 9) 5)).1)).map
      (fun o => (o.2.1, o.2.2.1, o.1.heap 3))
      = some ([5], [2],
          some { next := 1, prev := 2, cb := some (CB.ret 9), rc := 1, en := false }) ∧
    (3 : Nat) ∉ ([2] : List Nat) := by
  decide

/-- Supporting fact for C5 (not itself the claim): when the fresh node's
uninitialised enabled flag happens to read `true`, the same-pass invocation
claimed by the spec does occur — the reentrantly connected handler (node 3)
runs in the same emission, trace `[2, 3]`, results `[5, 9]`. -/
theorem reentrant_connect_invoked_same_pass_when_enabled :
    (emit (colVector Nat) allOn 10
        ((connect allOn (mkSignal none allOn) (CB.connectRet (CB.ret 9) 5)).1)).map
      (fun o => (o.2.1, o.2.2.1)) = some ([5, 9], [2, 3]) := by
  decide

/-- C6: the claim says emitting on a signal with no connected handlers and
no default callback returns `Result()` (value-initialised).  The code
returns `_collector.result()` of a default-constructed `CollectorLast`,
whose member `Result _last;` is default-initialised — for scalar `Result`
that is an indeterminate value, not `Result()`.  Modelling the
indeterminate initial value as 7: the empty emission returns 7, invokes
nothing, and 7 differs from the value-initialised 0. -/
theorem c6_empty_emit_returns_indeterminate_last :
    (emit (colLast Nat 7) allOn 5 (mkSignal none allOn)).map
      (fun o => (o.2.1, o.2.2.1)) = some (7, []) ∧ (7 : Nat) ≠ 0 := by
  decide

/-- C7: disabling a connected link makes emissions skip its callback while
keeping the link in the ring with its callback intact, and re-enabling
restores invocation.  First part, in full generality: for ANY signal state
satisfying the heap invariant and any node i, after `setEnabled i false`
an emission never invokes i and leaves i present with its callback
unchanged and still disabled.  Second and third parts, concretely: with
three handlers 10/20/30 and node 3 disabled, emission yields `[10, 30]`
(trace `[2, 4]`) and node 3 survives unchanged; re-enabling node 3 and
emitting again yields `[10, 20, 30]` (trace `[2, 3, 4]`). -/
theorem c7_disable_skips_and_reenable_restores :
    (∀ (ρ σ : Type) (E : Col Nat ρ σ) (e : Nat → Bool) (fuel : Nat) (st : St Nat)
        (i : Nat) (n : Node Nat) (out : St Nat × ρ × List Nat × Bool),
      GoodH st.heap st.ring st.fresh 0 →
      st.heap i = some n →
      emit E e fuel (setEnabledSt st i false) = some out →
      i ∉ out.2.2.1 ∧
        ∃ n1, out.1.heap i = some n1 ∧ n1.cb = n.cb ∧ n1.en = false) ∧
    ((emit (colVector Nat) allOn 10
        (setEnabledSt (connect3 allOn (CB.ret 10) (CB.ret 20) (CB.ret 30)) 3 false)).map
      (fun o => (o.2.1, o.2.2.1, o.1.heap 3))
      = some ([10, 30], [2, 4],
          some { next := 4, prev := 2, cb := some (CB.ret 20), rc := 1, en := false })) ∧
    (((emit (colVector Nat) allOn 10
        (setEnabledSt (connect3 allOn (CB.ret 10) (CB.ret 20) (CB.ret 30)) 3 false)).bind
      (fun o => emit (colVector Nat) allOn 10 (setEnabledSt o.1 3 true))).map
      (fun o => (o.2.1, o.2.2.1)) = some ([10, 20, 30], [2, 3, 4])) := by
  refine ⟨?_, by decide, by decide⟩
  intro ρ σ E e fuel st i n out G hn hq
  exact emit_skips_disabled E e fuel i G hn hq

theorem c7_disable_skips_and_reenable_restores_witness :
    ∃ out : St Nat × List Nat × List Nat × Bool,
      emit (colVector Nat) allOn 10
          (setEnabledSt (connect3 allOn (CB.ret 10) (CB.ret 20) (CB.ret 30)) 3 false)
        = some out ∧
      (3 : Nat) ∉ out.2.2.1 ∧
      ∃ n1, out.1.heap 3 = some n1 ∧ n1.cb = some (CB.ret 20) ∧ n1.en = false := by
  have G0 := mkSignal_inv (R := Nat) none allOn
  have G1 := (connect_inv allOn (CB.ret 10) G0 (Or.inl rfl)).1
  have G2 := (connect_inv allOn (CB.ret 20) G1 (Or.inl rfl)).1
  have G3 := (connect_inv allOn (CB.ret 30) G2 (Or.inl rfl)).1
  have h := (c7_disable_skips_and_reenable_restores.1 _ _ (colVector Nat) allOn 10
    (connect3 allOn (CB.ret 10) (CB.ret 20) (CB.ret 30)) 3
    { next := 4, prev := 2, cb := some (CB.ret 20), rc := 1, en := true } _ G3
    (by decide) rfl)
  exact ⟨_, rfl, h.1, h.2⟩

end Signal11

namespace Signal11

/-- C8: `removeSibling(target)` succeeds (returns `true`, having unlinked)
iff the target occurs on the `next`-chain starting at the node after `self`
and stopping at `self` — so stale or foreign pointers, which are not on
that chain, yield `false` and leave the heap untouched; and `remove()` on a
node whose `next` pointer is null returns `false` without mutating
anything. -/
theorem c8_remove_sibling_reachability_and_null_next :
    (∀ (h : Heap Nat) (self target fuel : Nat) (out : Heap Nat × Bool × Bool),
      removeSibling h self target fuel = some out →
      (out.2.1 = true ↔ reachableSib h self target fuel) ∧
      (out.2.1 = false → out.1 = h)) ∧
    (∀ (h : Heap Nat) (i fuel : Nat), nextOf h i = 0 →
      removeLink h i fuel = some (h, false, false)) := by
  refine ⟨?_, ?_⟩
  · intro h self target fuel out hq
    exact removeSibling_mem hq
  · intro h i fuel h0
    rw [removeLink, if_pos h0]

theorem c8_remove_sibling_reachability_and_null_next_witness :
    (∃ out : Heap Nat × Bool × Bool,
      removeSibling (connect3 allOn (CB.ret 10) (CB.ret 20) (CB.ret 30)).heap 1 3 9
          = some out ∧
      ((out.2.1 = true ↔
          reachableSib (connect3 allOn (CB.ret 10) (CB.ret 20) (CB.ret 30)).heap 1 3 9) ∧
        (out.2.1 = false →
          out.1 = (connect3 allOn (CB.ret 10) (CB.ret 20) (CB.ret 30)).heap))) ∧
    removeLink ((fun _ => none) : Heap Nat) 7 5 = some ((fun _ => none), false, false) := by
  constructor
  · have h := c8_remove_sibling_reachability_and_null_next.1
      (connect3 allOn (CB.ret 10) (CB.ret 20) (CB.ret 30)).heap 1 3 9 _ rfl
    exact ⟨_, rfl, h⟩
  · exact c8_remove_sibling_reachability_and_null_next.2 _ 7 5 rfl

/-- C9 counterexample: the destructor's assertion is
`assert(_callbackRing->_refCount >= 2)` — it fires when the ring reports
FEWER references than the anchor's two, not more.  Destroying a registry
whose sentinel still reports 3 references (more than the anchor's two, the
claimed abort condition) fires no assertion, while destroying one whose
sentinel reports a single reference (fewer than two) does fire it. -/
theorem c9_destructor_assert_fires_on_fewer_not_more :
    (destroy 1 (ringOnly 3)).map (fun p => p.2) = some false ∧
    (destroy 1 (ringOnly 1)).map (fun p => p.2) = some true ∧
    ((3 : Int) > 2) ∧ ((1 : Int) < 2) := by
  decide

/-- C9 amended: (i) the `decref` assertion fires exactly when a live node's
reference count would go negative; (ii) destroying a sentinel-only registry
whose sentinel reports `k` references fires an assertion exactly when
`k < 2` (fewer than the anchor's two, not more); (iii) under correct API
use — any sequence of client operations from a fresh registry — no
assertion ever fires, including during destruction of the final state. -/
theorem c9_assertions_fire_exactly_on_violations :
    (∀ (h : Heap Nat) (i : Nat),
      (decref h i).2 = true ↔ ∃ n, h i = some n ∧ n.rc - 1 < 0) ∧
    (∀ k : Int, (destroy 1 (ringOnly k)).map (fun p => p.2) = some (decide (k < 2))) ∧
    (∀ (ρ σ : Type) (E : Col Nat ρ σ) (e : Nat → Bool) (ops : List (Op Nat)) (r' : Run Nat),
      runOps E e (initRun none e) ops = some r' →
      r'.fired = false ∧
        ∀ (df : Nat) (o : Heap Nat × Bool), destroy df r'.st = some o → o.2 = false) := by
  refine ⟨?_, ?_, ?_⟩
  · intro h i
    cases hn : h i with
    | none => simp [decref, hn]
    | some n =>
      simp only [decref, hn]
      by_cases hz : n.rc - 1 = 0
      · rw [if_pos hz]
        constructor
        · intro hc
          exact Bool.noConfusion hc
        · rintro ⟨m, hm, hlt⟩
          injection hm with hnm
          subst hnm
          omega
      · rw [if_neg hz]
        simp
  · intro k
    have hh1 : (ringOnly k).heap (ringOnly k).ring
        = some { next := 1, prev := 1, cb := none, rc := k, en := true } := by
      show hset (fun _ => none) 1 { next := 1, prev := 1, cb := none, rc := k, en := true } 1
        = some { next := 1, prev := 1, cb := none, rc := k, en := true }
      exact hset_self _ _ _
    have hnx : nextOf (ringOnly k).heap (ringOnly k).ring = (ringOnly k).ring := rfl
    have hdl : destroyLoop 1 (ringOnly k).heap (ringOnly k).ring false
        = some ((ringOnly k).heap, false) := by
      rw [destroyLoop, if_pos hnx]
    have hr0 : ¬ (ringOnly k).ring = 0 := fun hc => Nat.noConfusion hc
    rw [destroy, if_neg hr0]
    simp only [hdl, hh1]
    dsimp only
    rw [decref_some hh1]
    dsimp only
    by_cases h1 : k - 1 = 0
    · rw [if_pos h1]
      dsimp only
      rw [decref_none (hdel_self _ _)]
      have hk1 : k = 1 := by omega
      subst hk1
      decide
    · rw [if_neg h1]
      dsimp only
      have hh2 : hset (ringOnly k).heap (ringOnly k).ring
          { next := 1, prev := 1, cb := none, rc := k - 1, en := true } (ringOnly k).ring
          = some { next := 1, prev := 1, cb := none, rc := k - 1, en := true } :=
        hset_self _ _ _
      rw [decref_some hh2]
      dsimp only
      by_cases h2 : k - 1 - 1 = 0
      · rw [if_pos h2]
        dsimp only
        have hk2 : k = 2 := by omega
        subst hk2
        decide
      · rw [if_neg h2]
        dsimp only
        simp only [Option.map_some', Option.some.injEq, Bool.false_or, Bool.or_false]
        by_cases hk : k < 2
        · simp [hk]
        · have e1 : ¬ (k - 1 < 0) := by omega
          have e2 : ¬ (k - 1 - 1 < 0) := by omega
          simp [hk, e1, e2]
  · intro ρ σ E e ops r' hq
    obtain ⟨I, _⟩ := runOps_inv E e ops _ _ hq (initRun_inv none e)
    exact ⟨I.fired, fun df o ho => destroy_nofire I.good df o ho⟩

theorem c9_assertions_fire_exactly_on_violations_witness :
    (decref (ringOnly 0).heap 1).2 = true ∧
    (destroy 1 (ringOnly 5)).map (fun p => p.2) = some false ∧
    ∃ r' : Run Nat,
      runOps (colVector Nat) allOn (initRun none allOn)
          [Op.connect (CB.ret 1), Op.emit 10] = some r' ∧
      r'.fired = false := by
  refine ⟨?_, ?_, ?_⟩
  · refine (c9_assertions_fire_exactly_on_violations.1 (ringOnly 0).heap 1).mpr
      ⟨{ next := 1, prev := 1, cb := none, rc := 0, en := true }, ?_, by decide⟩
    show hset (fun _ => none) 1 { next := 1, prev := 1, cb := none, rc := (0 : Int), en := true } 1
      = some { next := 1, prev := 1, cb := none, rc := 0, en := true }
    exact hset_self _ _ _
  · have h := c9_assertions_fire_exactly_on_violations.2.1 5
    simpa using h
  · have h := c9_assertions_fire_exactly_on_violations.2.2 _ _ (colVector Nat) allOn
      [Op.connect (CB.ret 1), Op.emit 10] _ rfl
    exact ⟨_, rfl, h.1⟩

/-- C10: `SignalLink`'s constructor initialises `next`, `prev`, the stored
callback and the reference count of a fresh node, but never the inherited
`_enabled` flag, whose value is therefore the indeterminate `e`: connecting
the very same callback to identically constructed registries and emitting
(no toggles anywhere) invokes the callback when the indeterminate read is
`true` (trace `[2]`, result 42) and skips it when the read is `false`
(empty trace, the collector's initial value) — all other node fields being
identical in the two runs. -/
theorem c10_constructor_leaves_enabled_uninitialized :
    ((connect allOn (mkSignal none allOn) (CB.ret 42)).1.heap 2
      = some { next := 1, prev := 1, cb := some (CB.ret 42), rc := 1, en := true }) ∧
    ((connect allOff (mkSignal none allOff) (CB.ret 42)).1.heap 2
      = some { next := 1, prev := 1, cb := some (CB.ret 42), rc := 1, en := false }) ∧
    ((emit (colLast Nat 0) allOn 5 ((connect allOn (mkSignal none allOn) (CB.ret 42)).1)).map
      (fun o => (o.2.1, o.2.2.1)) = some (42, [2])) ∧
    ((emit (colLast Nat 0) allOff 5 ((connect allOff (mkSignal none allOff) (CB.ret 42)).1)).map
      (fun o => (o.2.1, o.2.2.1)) = some (0, [])) := by
  decide

end Signal11
